import Mathlib

/-!
Verification development for the FloorCastMPC elevator-dispatch system.

Shallow embedding of:
  - the request / elevator data model (models/variables.py, per spec section 3),
  - the dwell model hold_time (src/models/temporal.py),
  - the kinematics model travel_time (src/models/kinematics.py),
  - the objective model (spec section 4.4; the five-argument compute_objective
    called by src/main.py is absent from the captured objective.py),
  - the greedy baseline policy assign_requests_greedy and the discrete-event
    dispatch simulator simulate_dispatch (src/models/baseline_scheduler.py),
  - the rolling-horizon policy assign_requests_mpc (src/mpc_scheduler.py).

Modelling conventions:
  - Python floats are embedded as exact rationals (the float literal 1e-9 that
    the source uses as comparison slack becomes the rational 1/10^9); the
    kinematics model, which uses math.sqrt and math.exp, is embedded over ℝ.
  - The numeric leaf functions (travel_time, hold_time, segment_energy,
    standby_energy) imported by the simulator and the MPC policy are passed as
    parameters in a SimCfg record, mirroring the source's module imports and
    the externally configured constants; standby_energy itself is absent from
    the captured sources (only its callers are) and appears only as the
    parameter field.
  - Python mutates Request objects shared between the queue, waiting, onboard
    and served lists.  The embedding gives each request a unique rid and keeps
    the canonical (mutable) record in a store, with the simulator lists holding
    rids, which models object identity and in-place timestamp mutation.
  - Unbounded while loops are embedded with explicit fuel: a Bool result flag
    is true when the loop exited by its own condition and false when the fuel
    ran out mid-loop.
-/

namespace FloorCast

/-- One passenger-group trip (models/variables.py Request, spec section 3);
the four timestamp fields start unset and are written only by the simulator. -/
structure Request where
  rid : ℕ
  origin : ℤ
  destination : ℤ
  load : ℚ
  arrivalTime : ℚ
  pickupTime : Option ℚ := none
  dropoffTime : Option ℚ := none
  originArrivalTime : Option ℚ := none
  destinationArrivalTime : Option ℚ := none
deriving DecidableEq, Repr

instance : Inhabited Request :=
  ⟨{ rid := 0, origin := 0, destination := 0, load := 0, arrivalTime := 0 }⟩

/-- One simulated car (models/variables.py ElevatorState, spec section 3). -/
structure Elevator where
  eid : ℕ
  floor : ℤ
  initialFloor : ℤ := 0
  queue : List Request := []
  servedRequests : List Request := []
deriving DecidableEq, Repr

instance : Inhabited Elevator := ⟨{ eid := 0, floor := 0 }⟩

/-- Travel direction of a request relative to a reference floor
(request_direction in baseline_scheduler.py returns "up", "down" or "idle"). -/
inductive Dir where
  | up
  | down
  | idle
deriving DecidableEq, Repr

/-- Insert x into l after every element whose key is ≤ key x.  Together with
sort_by this embeds Python's stable sorted(..., key=...). -/
def insert_by (key : Request → ℚ) (x : Request) : List Request → List Request
  | [] => [x]
  | y :: ys => if key y ≤ key x then y :: insert_by key x ys else x :: y :: ys

/-- Stable sort by a rational key, embedding Python's sorted(requests, key=...). -/
def sort_by (key : Request → ℚ) (l : List Request) : List Request :=
  l.foldl (fun acc x => insert_by key x acc) []

/-- First minimal element of b :: l under the key (Python's min(...), which
returns the earliest element attaining the minimal key). -/
def pick_first_min {κ : Type} [LinearOrder κ] (key : α → κ) : α → List α → α
  | b, [] => b
  | b, x :: xs => pick_first_min key (if key x < key b then x else b) xs

/-- The 1e-9 comparison slack used by baseline_scheduler.py (boarding
admission and the empty-load test). -/
def eps : ℚ := 1 / 1000000000

/- ===== Dwell model: src/models/temporal.py ===== -/

/-- The HOLD_* configuration constants read by hold_time (external
configuration; the config module is not part of the core). -/
structure HoldCfg where
  base : ℚ
  normalRate : ℚ
  congestedRate : ℚ
  threshold : ℚ

/-- Door dwell time versus boarding+alighting mass (temporal.py hold_time). -/
def hold_time (c : HoldCfg) (boarding_weight alighting_weight : ℚ) : ℚ :=
  let total_weight := boarding_weight + alighting_weight
  if total_weight ≤ c.threshold then
    c.base + c.normalRate * total_weight
  else
    c.base + c.normalRate * c.threshold
      + c.congestedRate * (total_weight - c.threshold)

/- ===== Objective model (spec section 4.4) ===== -/

/-- The objective weights (external configuration, spec section 4.4). -/
structure ObjectiveWeights where
  wait : ℚ
  ride : ℚ
  runningEnergy : ℚ
  emptyloadEnergy : ℚ
  waitPenalty : ℚ

/-- The objective breakdown returned by compute_objective (spec section 4.4). -/
structure ObjectiveBreakdown where
  total : ℚ
  wait_cost : ℚ
  ride_cost : ℚ
  running_energy_cost : ℚ
  emptyload_energy_cost : ℚ
deriving DecidableEq, Repr

/-- Modelled from the spec: the five-argument compute_objective
(wait_time, in_cab_time, emptyload_energy, running_energy, wait_penalty) →
breakdown, described in spec section 4.4 and called with exactly this shape by
src/main.py lines 68-73; the captured src/models/objective.py holds only a
stale two-argument variant (and lacks the summarize_passenger_metrics and
compute_theoretical_limit that main.py imports from the same module), so the
function deciding this claim is missing from the capture.  Per the spec it is
a linear weighted combination under external weights. -/
def compute_objective (w : ObjectiveWeights)
    (wait_time in_cab_time emptyload_energy running_energy wait_penalty_value : ℚ) :
    ObjectiveBreakdown :=
  let wait_cost := w.wait * wait_time
  let ride_cost := w.ride * in_cab_time
  let running_energy_cost := w.runningEnergy * running_energy
  let emptyload_energy_cost := w.emptyloadEnergy * emptyload_energy
  { total := wait_cost + ride_cost + running_energy_cost + emptyload_energy_cost
      + w.waitPenalty * wait_penalty_value
    wait_cost := wait_cost
    ride_cost := ride_cost
    running_energy_cost := running_energy_cost
    emptyload_energy_cost := emptyload_energy_cost }

/- ===== Kinematics model: src/models/kinematics.py ===== -/

/-- The KIN_* / building configuration constants read by kinematics.py. -/
structure KinCfg where
  floorHeight : ℝ
  capacity : ℝ
  maxSpeedUpFull : ℝ
  maxSpeedUpEmpty : ℝ
  maxSpeedDownFull : ℝ
  maxSpeedDownEmpty : ℝ
  speedDecayRate : ℝ
  accUpFull : ℝ
  accUpEmpty : ℝ
  decDownFull : ℝ
  decDownEmpty : ℝ
  accDecayRate : ℝ

/-- Load-dependent upward velocity limit (kinematics.py vmax_up). -/
noncomputable def vmax_up (c : KinCfg) (load : ℝ) : ℝ :=
  c.maxSpeedUpFull + (c.maxSpeedUpEmpty - c.maxSpeedUpFull)
    * Real.exp (-c.speedDecayRate * load / c.capacity)

/-- Load-dependent downward velocity limit (kinematics.py vmax_down). -/
noncomputable def vmax_down (c : KinCfg) (load : ℝ) : ℝ :=
  c.maxSpeedDownFull + (c.maxSpeedDownEmpty - c.maxSpeedDownFull)
    * Real.exp (-c.speedDecayRate * load / c.capacity)

/-- Load-dependent acceleration (kinematics.py acc). -/
noncomputable def acc (c : KinCfg) (load : ℝ) : ℝ :=
  c.accUpFull + (c.accUpEmpty - c.accUpFull)
    * Real.exp (-c.accDecayRate * load / c.capacity)

/-- Load-dependent deceleration (kinematics.py dec; the source also uses
KIN_ACC_DECAY_RATE here, not a separate deceleration decay rate). -/
noncomputable def dec (c : KinCfg) (load : ℝ) : ℝ :=
  c.decDownFull + (c.decDownEmpty - c.decDownFull)
    * Real.exp (-c.accDecayRate * load / c.capacity)

/-- Travel duration between two floors under the triangular/trapezoidal
velocity profile (kinematics.py travel_time).  Python float division by zero
and math.sqrt of a negative argument raise at run time; the embedding returns
none exactly when the source would evaluate such an operation, so a some
result certifies in particular that no division by zero was evaluated. -/
noncomputable def travel_time (c : KinCfg) (load : ℝ)
    (origin_floor destination_floor : ℤ) : Option ℝ :=
  let distance : ℝ := ((destination_floor - origin_floor).natAbs : ℝ) * c.floorHeight
  if c.capacity = 0 then none else
  let vmax := if origin_floor < destination_floor then vmax_up c load else vmax_down c load
  let a_acc := acc c load
  let a_dec := dec c load
  if a_acc + a_dec = 0 then none else
  if 2 * distance * a_acc * a_dec / (a_acc + a_dec) < 0 then none else
  let v_peak := Real.sqrt (2 * distance * a_acc * a_dec / (a_acc + a_dec))
  if v_peak ≤ vmax then
    if a_acc = 0 ∨ a_dec = 0 then none else
    some (v_peak * (1 / a_acc + 1 / a_dec))
  else
    if a_acc = 0 ∨ a_dec = 0 ∨ vmax = 0 then none else
    let d_acc := vmax ^ 2 / (2 * a_acc)
    let d_dec := vmax ^ 2 / (2 * a_dec)
    let d_const := max (distance - d_acc - d_dec) 0
    some (vmax / a_acc + vmax / a_dec + d_const / vmax)

/- ===== Dispatch simulator: src/models/baseline_scheduler.py ===== -/

/-- The configuration and imported numeric leaf functions consumed by
simulate_dispatch and assign_requests_mpc: BUILDING_FLOOR_HEIGHT,
ELEVATOR_CAPACITY, WEIGHT_TIME, WEIGHT_ENERGY, and the imported travel_time,
hold_time, segment_energy (direction passed as up? : Bool) and standby_energy
(the latter's definition is absent from the captured sources). -/
structure SimCfg where
  floorHeight : ℚ
  capacity : ℚ
  weightTime : ℚ
  weightEnergy : ℚ
  travelTimeF : ℚ → ℤ → ℤ → ℚ
  holdTimeF : ℚ → ℚ → ℚ
  segmentEnergyF : ℚ → ℚ → Bool → ℚ
  standbyEnergyF : ℚ → ℚ

/-- The per-elevator simulation state of simulate_dispatch.  store holds the
canonical request records (Python's shared mutable objects) keyed by rid;
pending / waiting / onboard / serviceLog hold rids.  stopLoads is observational
instrumentation only: it records the onboard mass at the end of every executed
process_stop call, so the capacity invariant can be stated over a run. -/
structure SimSt where
  store : List Request
  pending : List ℕ
  waiting : List ℕ
  onboard : List ℕ
  serviceLog : List ℕ
  floor : ℤ
  time : ℚ
  totalTime : ℚ
  totalEnergy : ℚ
  emptyloadEnergy : ℚ
  stopLoads : List ℚ
deriving DecidableEq, Repr

/-- The canonical record of the request with the given rid (Python's object
dereference; the simulator only uses rids present in the store). -/
def lookup (store : List Request) (i : ℕ) : Request :=
  (store.find? (fun r => r.rid == i)).getD default

/-- In-place mutation of the request with the given rid (Python attribute
assignment on the shared object). -/
def updReq (store : List Request) (i : ℕ) (f : Request → Request) : List Request :=
  store.map (fun r => if r.rid == i then f r else r)

/-- Total load of the listed requests (baseline_scheduler.py current_load,
applied to the onboard list). -/
def loadOf (store : List Request) (l : List ℕ) : ℚ :=
  (l.map (fun i => (lookup store i).load)).sum

/-- Move arrived pending requests into the waiting list
(baseline_scheduler.py pull_ready_requests). -/
def pull_ready_aux (store : List Request) (time : ℚ) :
    List ℕ → List ℕ → List ℕ × List ℕ
  | [], waiting => ([], waiting)
  | i :: rest, waiting =>
    if (lookup store i).arrivalTime ≤ time then
      pull_ready_aux store time rest (waiting ++ [i])
    else (i :: rest, waiting)

/-- pull_ready_requests acting on the simulation state. -/
def pull_ready_requests (s : SimSt) : SimSt :=
  let pw := pull_ready_aux s.store s.time s.pending s.waiting
  { s with pending := pw.1, waiting := pw.2 }

/-- Direction of a request relative to a reference floor
(baseline_scheduler.py request_direction). -/
def request_direction (r : Request) (reference_floor : ℤ) : Dir :=
  if reference_floor < r.destination then Dir.up
  else if r.destination < reference_floor then Dir.down
  else Dir.idle

/-- Advance time and energy for a trip (baseline_scheduler.py travel_between);
a same-floor call returns the state unchanged. -/
def travel_between (cfg : SimCfg) (s : SimSt) (end_floor : ℤ) : SimSt :=
  if s.floor = end_floor then s
  else
    let load := loadOf s.store s.onboard
    let travel_duration := cfg.travelTimeF load s.floor end_floor
    let up : Bool := s.floor < end_floor
    let distance := ((end_floor - s.floor).natAbs : ℚ) * cfg.floorHeight
    let energy_motion := cfg.segmentEnergyF load distance up
    let energy_idle := cfg.standbyEnergyF travel_duration
    let s2 := { s with
      time := s.time + travel_duration
      totalTime := s.totalTime + travel_duration
      totalEnergy := s.totalEnergy + (energy_motion + energy_idle)
      floor := end_floor
      emptyloadEnergy := s.emptyloadEnergy
        + (if load ≤ eps then energy_motion + energy_idle else 0) }
    pull_ready_requests s2

/-- Greedy admission of boarding candidates in encounter order against the
running remaining capacity, with the source's 1e-9 slack
(the boarders-filtering loop inside process_stop). -/
def filter_admissible (store : List Request) : ℚ → List ℕ → List ℕ
  | _, [] => []
  | remaining, i :: rest =>
    if (lookup store i).load ≤ remaining + eps then
      i :: filter_admissible store (remaining - (lookup store i).load) rest
    else
      filter_admissible store remaining rest

/-- The timestamp write of an alighting passenger: destination_arrival_time
is the door-open instant, dropoff_time the instant after the dwell. -/
def leave_stamp (arrive_time dropoff_time : ℚ) (r : Request) : Request :=
  { r with destinationArrivalTime := some arrive_time
           dropoffTime := some dropoff_time }

/-- The timestamp write of a boarding passenger: origin_arrival_time is the
door-open instant, pickup_time the instant after the dwell. -/
def board_stamp (arrive_time pickup_time : ℚ) (r : Request) : Request :=
  { r with originArrivalTime := some arrive_time
           pickupTime := some pickup_time }

/-- The extra write for a boarder already at its destination floor: dropped
off in the same stop without entering the cab. -/
def board_drop_stamp (arrive_time pickup_time : ℚ) (r : Request) : Request :=
  { r with dropoffTime := some pickup_time
           destinationArrivalTime := some arrive_time }

/-- Alighting of one leaver: remove from onboard (Python list.remove removes
the first occurrence and is guarded by membership; List.erase is a no-op on a
non-member) and stamp destination_arrival_time / dropoff_time. -/
def stamp_leaver (arrive_time dropoff_time : ℚ) (s : SimSt) (i : ℕ) : SimSt :=
  { s with
    onboard := s.onboard.erase i
    store := updReq s.store i (leave_stamp arrive_time dropoff_time) }

/-- Boarding of one admitted boarder: remove from waiting, stamp
origin_arrival_time / pickup_time, append to the service log if absent, and
either drop off immediately (destination equals the current floor) or enter
the cab. -/
def stamp_boarder (arrive_time pickup_time : ℚ) (floor : ℤ) (s : SimSt) (i : ℕ) : SimSt :=
  let s2 := { s with
    waiting := s.waiting.erase i
    store := updReq s.store i (board_stamp arrive_time pickup_time)
    serviceLog := if i ∈ s.serviceLog then s.serviceLog else s.serviceLog ++ [i] }
  if (lookup s2.store i).destination = floor then
    { s2 with store := updReq s2.store i (board_drop_stamp arrive_time pickup_time) }
  else
    { s2 with onboard := s2.onboard ++ [i] }

/-- Handle dwell time, boarding and alighting at one stop
(baseline_scheduler.py process_stop). -/
def process_stop (cfg : SimCfg) (s : SimSt) (boarders leavers : List ℕ) : SimSt :=
  if boarders = [] ∧ leavers = [] then s
  else
    let leaving_weight :=
      ((leavers.filter (fun i => decide (i ∈ s.onboard))).map
        (fun i => (lookup s.store i).load)).sum
    let post_leave_load := max 0 (loadOf s.store s.onboard - leaving_weight)
    let remaining_capacity := max 0 (cfg.capacity - post_leave_load)
    let admitted := filter_admissible s.store remaining_capacity boarders
    let arrive_time := s.time
    let boarding_weight := (admitted.map (fun i => (lookup s.store i).load)).sum
    let dwell := if admitted ≠ [] ∨ leavers ≠ [] then
        cfg.holdTimeF boarding_weight leaving_weight
      else 0
    let s2 := { s with
      time := s.time + dwell
      totalTime := s.totalTime + dwell
      totalEnergy := s.totalEnergy + cfg.standbyEnergyF dwell }
    let s3 := leavers.foldl (stamp_leaver arrive_time (arrive_time + dwell)) s2
    let s4 := admitted.foldl (stamp_boarder arrive_time (arrive_time + dwell) s3.floor) s3
    let s5 := pull_ready_requests s4
    { s5 with stopLoads := s5.stopLoads ++ [loadOf s5.store s5.onboard] }

/-- Ready requests waiting at the current floor (the ready_here comprehension
in simulate_dispatch). -/
def ready_here (s : SimSt) : List ℕ :=
  s.waiting.filter (fun i =>
    (lookup s.store i).origin == s.floor
      && decide ((lookup s.store i).arrivalTime ≤ s.time))

/-- Boarders among the ready requests: direction matches or is degenerate
(the boarders comprehension in simulate_dispatch). -/
def boarders_here (s : SimSt) (direction : Dir) : List ℕ :=
  (ready_here s).filter (fun i =>
    request_direction (lookup s.store i) s.floor == direction
      || request_direction (lookup s.store i) s.floor == Dir.idle)

/-- Candidate next floors of the serve loop: destinations of onboard
passengers strictly ahead in the committed direction, and origins of
already-arrived waiting requests ahead whose own direction matches. -/
def serve_candidates (s : SimSt) (direction : Dir) : List ℤ :=
  if direction = Dir.up then
    (s.onboard.filterMap (fun i =>
      let d := (lookup s.store i).destination
      if s.floor < d then some d else none))
    ++ (s.waiting.filterMap (fun i =>
      let r := lookup s.store i
      if r.arrivalTime ≤ s.time ∧ s.floor < r.origin
          ∧ request_direction r r.origin = Dir.up then
        some r.origin
      else none))
  else
    (s.onboard.filterMap (fun i =>
      let d := (lookup s.store i).destination
      if d < s.floor then some d else none))
    ++ (s.waiting.filterMap (fun i =>
      let r := lookup s.store i
      if r.arrivalTime ≤ s.time ∧ r.origin < s.floor
          ∧ request_direction r r.origin = Dir.down then
        some r.origin
      else none))

/-- Nearest relevant floor in the committed direction (min when going up,
max when going down), none when no candidate remains. -/
def serve_next_floor (s : SimSt) (direction : Dir) : Option ℤ :=
  if direction = Dir.up then (serve_candidates s direction).min?
  else (serve_candidates s direction).max?

/-- Onboard passengers whose destination is the current floor (the leavers
comprehension of the serve loop). -/
def leavers_at (s : SimSt) : List ℕ :=
  s.onboard.filter (fun i => (lookup s.store i).destination == s.floor)

/-- The serve-direction loop (the inner while onboard loop of
simulate_dispatch): repeatedly advance to the nearest relevant floor in the
committed direction and process the stop.  Returns false when the fuel runs
out before the loop exits. -/
def serve_loop (cfg : SimCfg) : ℕ → Dir → SimSt → Bool × SimSt
  | 0, _, s => (false, s)
  | fuel + 1, direction, s0 =>
    if s0.onboard = [] then (true, s0)
    else
      let s := pull_ready_requests s0
      match serve_next_floor s direction with
      | none => (true, s)
      | some next_floor =>
        let s2 := travel_between cfg s next_floor
        let s3 := process_stop cfg s2 (boarders_here s2 direction) (leavers_at s2)
        serve_loop cfg fuel direction s3

/-- One iteration of the outer while loop of simulate_dispatch (lines
182-310).  The Bool is true when the iteration finished normally (continue /
fall-through) and false when the inner serve loop exhausted its fuel.
The source's break (reachable only with pending, waiting and onboard all
empty) is modelled by returning the state, on which the loop condition then
terminates the loop. -/
def fast_forward (cfg : SimCfg) (s1 : SimSt) : SimSt :=
  match s1.pending with
  | [] => s1
  | next :: rest =>
    let r := lookup s1.store next
    let sa :=
      if s1.time < r.arrivalTime then
        { s1 with
          totalEnergy := s1.totalEnergy + cfg.standbyEnergyF (r.arrivalTime - s1.time)
          time := r.arrivalTime }
      else s1
    pull_ready_requests { sa with pending := rest, waiting := sa.waiting ++ [next] }

/-- The waiting request targeted when the cab is empty: earliest arrival,
then nearest origin (Python min over (arrival_time, distance)). -/
def pick_target (s : SimSt) (w : ℕ) (ws : List ℕ) : ℕ :=
  pick_first_min
    (fun i => (toLex ((lookup s.store i).arrivalTime,
      |(lookup s.store i).origin - s.floor|) : Lex (ℚ × ℤ))) w ws

/-- The primary request among those ready here: earliest arrival, then
nearest destination; its direction is committed for the serve loop. -/
def pick_primary (s : SimSt) (rh : ℕ) (rt : List ℕ) : ℕ :=
  pick_first_min
    (fun i => (toLex ((lookup s.store i).arrivalTime,
      |(lookup s.store i).destination - s.floor|) : Lex (ℚ × ℤ))) rh rt

/-- Distinct non-idle directions of onboard passengers, in first-seen order
(the dedup of the direction comprehension). -/
def serve_dirs (s : SimSt) : List Dir :=
  ((s.onboard.map
    (fun i => request_direction (lookup s.store i) s.floor)).filter
      (fun d => d ≠ Dir.idle)).dedup

/-- The pickup commitment once the empty cab stands at a floor with ready
requests: board along the primary request's direction, then serve that
direction (or stop if it is degenerate / nobody actually boarded). -/
def commit_step (cfg : SimCfg) (fuel : ℕ) (s3 : SimSt) (rh : ℕ) (rt : List ℕ) :
    Bool × SimSt :=
  let direction := request_direction (lookup s3.store (pick_primary s3 rh rt)) s3.floor
  let s4 := process_stop cfg s3 (boarders_here s3 direction) []
  if direction = Dir.idle ∨ s4.onboard = [] then (true, s4)
  else serve_loop cfg fuel direction s4

/-- The empty-cab step: travel to the target's origin, then commit to the
primary ready request there (nobody ready on arrival ends the iteration). -/
def empty_cab_step (cfg : SimCfg) (fuel : ℕ) (s2 : SimSt) (w : ℕ) (ws : List ℕ) :
    Bool × SimSt :=
  let s3 := travel_between cfg s2 (lookup s2.store (pick_target s2 w ws)).origin
  match ready_here s3 with
  | [] => (true, s3)
  | rh :: rt => commit_step cfg fuel s3 rh rt

def loop_body (cfg : SimCfg) (fuel : ℕ) (s0 : SimSt) : Bool × SimSt :=
  let s1 := pull_ready_requests s0
  let s2 :=
    if s1.waiting = [] ∧ s1.onboard = [] then fast_forward cfg s1
    else s1
  if s2.waiting = [] ∧ s2.onboard = [] then (true, s2)
  else if s2.onboard = [] then
    match s2.waiting with
    | [] => (true, s2)
    | w :: ws => empty_cab_step cfg fuel s2 w ws
  else
    match (serve_dirs s2).head? with
    | none => (true, process_stop cfg s2 [] s2.onboard)
    | some direction => serve_loop cfg fuel direction s2

/-- The outer while loop of simulate_dispatch, with fuel; false when the fuel
ran out before all of pending, waiting and onboard were empty. -/
def main_loop (cfg : SimCfg) : ℕ → SimSt → Bool × SimSt
  | 0, s => (false, s)
  | fuel + 1, s =>
    if s.pending = [] ∧ s.waiting = [] ∧ s.onboard = [] then (true, s)
    else
      match loop_body cfg fuel s with
      | (true, s2) => main_loop cfg fuel s2
      | (false, s2) => (false, s2)

/-- Reset of the four mutable timestamps done by simulate_dispatch before the
loop. -/
def reset_request (r : Request) : Request :=
  { r with pickupTime := none, dropoffTime := none
           originArrivalTime := none, destinationArrivalTime := none }

/-- Initial per-elevator state of simulate_dispatch: pending is the elevator's
queue sorted by arrival time with timestamps cleared; the clock starts at 0. -/
def init_state (elev : Elevator) : SimSt :=
  let sortedQ := (sort_by (fun r => r.arrivalTime) elev.queue).map reset_request
  { store := sortedQ
    pending := sortedQ.map (fun r => r.rid)
    waiting := []
    onboard := []
    serviceLog := []
    floor := elev.floor
    time := 0
    totalTime := 0
    totalEnergy := 0
    emptyloadEnergy := 0
    stopLoads := [] }

/-- Run one elevator's simulation to completion (or fuel exhaustion). -/
def run_elevator (cfg : SimCfg) (fuel : ℕ) (elev : Elevator) : Bool × SimSt :=
  main_loop cfg fuel (init_state elev)

/-- Aggregate output of simulate_dispatch: the updated elevators, the summed
time/energy accumulators, and the concatenation of served_requests.  completed
is true when every elevator's loop terminated within the fuel (the Python
function only returns in that case). -/
structure DispatchResult where
  completed : Bool
  elevators : List Elevator
  total_time : ℚ
  total_energy : ℚ
  all_served : List Request
  emptyload_energy : ℚ
deriving Repr

/-- Simulate each elevator in turn and collect metrics
(baseline_scheduler.py simulate_dispatch).  The accumulators are kept per
elevator and summed, which agrees with the source's single running totals. -/
def simulate_dispatch (cfg : SimCfg) (fuel : ℕ) : List Elevator → DispatchResult
  | [] => { completed := true, elevators := [], total_time := 0, total_energy := 0
            all_served := [], emptyload_energy := 0 }
  | elev :: rest =>
    match run_elevator cfg fuel elev with
    | (false, _) =>
      { completed := false, elevators := elev :: rest, total_time := 0,
        total_energy := 0, all_served := [], emptyload_energy := 0 }
    | (true, s) =>
      let served := s.serviceLog.map (lookup s.store)
      let elev2 := { elev with
        floor := s.floor
        initialFloor := elev.floor
        queue := []
        servedRequests := served }
      let tail := simulate_dispatch cfg fuel rest
      { completed := tail.completed
        elevators := elev2 :: tail.elevators
        total_time := s.totalTime + tail.total_time
        total_energy := s.totalEnergy + tail.total_energy
        all_served := served ++ tail.all_served
        emptyload_energy := s.emptyloadEnergy + tail.emptyload_energy }

/- ===== Greedy baseline policy: assign_requests_greedy ===== -/

/-- The lexicographic selection key of assign_requests_greedy:
(queue length, |forecast floor − request origin|, elevator id).  The policy
state pairs each elevator with its forecast floor (the temporary
a-forecast-floor attribute of the source). -/
def greedy_key (r : Request) (g : Elevator × ℤ) : Lex (ℕ × Lex (ℤ × ℕ)) :=
  toLex (g.1.queue.length, toLex (|g.2 - r.origin|, g.1.eid))

/-- The (position, elevator-with-forecast) pair chosen by one greedy
assignment step: Python's min over the elevators, which returns the first
elevator attaining the minimal key. -/
def greedy_choice (r : Request) (gs : List (Elevator × ℤ)) : ℕ × (Elevator × ℤ) :=
  match gs.enum with
  | [] => (0, default)
  | p :: ps => pick_first_min (fun q => greedy_key r q.2) p ps

/-- One assignment step of assign_requests_greedy: choose the elevator
minimizing the greedy key, append the request to its queue and update its
forecast floor to the request's origin (never its destination). -/
def greedy_step (gs : List (Elevator × ℤ)) (r : Request) : List (Elevator × ℤ) :=
  match gs.enum with
  | [] => gs
  | _ :: _ =>
    let best := greedy_choice r gs
    gs.set best.1 ({ best.2.1 with queue := best.2.1.queue ++ [r] }, r.origin)

/-- Greedy balanced-queue dispatcher (baseline_scheduler.py
assign_requests_greedy): clear all queues, process requests in ascending
arrival order, and drop the forecast floors at the end. -/
def assign_requests_greedy (requests : List Request) (elevators : List Elevator) :
    List Elevator :=
  if elevators = [] then elevators
  else
    let init := elevators.map
      (fun e => ({ e with queue := [], servedRequests := [] }, e.floor))
    ((sort_by (fun r => r.arrivalTime) requests).foldl greedy_step init).map Prod.fst

/- ===== Rolling-horizon policy: src/mpc_scheduler.py ===== -/

/-- Ephemeral per-elevator plan projection (mpc_scheduler.py class PlanState). -/
structure PlanState where
  floor : ℤ
  time : ℚ
deriving DecidableEq, Repr

/-- Direction as a Bool (up?); mpc_scheduler.py maps a same-floor pair to
"up". -/
def direction_of (start e : ℤ) : Bool :=
  if start < e then true else if e < start then false else true

/-- The 1e-6 finish-time tie-break bias of the incremental cost estimate. -/
def tie_bias : ℚ := 1 / 1000000

/-- (total_cost, finish_time, passenger_time) for appending a request to a
plan (mpc_scheduler.py estimate_incremental_cost; the source's declared
Optional result is in fact always a tuple, so the embedding is total). -/
def estimate_incremental_cost (cfg : SimCfg) (plan : PlanState) (request : Request) :
    ℚ × ℚ × ℚ :=
  let current_floor := plan.floor
  let available_time := plan.time
  let origin := request.origin
  let destination := request.destination
  let travel_to_origin := cfg.travelTimeF 0 current_floor origin
  let arrival_at_origin := available_time + travel_to_origin
  let start_service := max arrival_at_origin request.arrivalTime
  let dwell := cfg.holdTimeF request.load 0
  let depart_time := start_service + dwell
  let travel_to_dest := cfg.travelTimeF request.load origin destination
  let finish_time := depart_time + travel_to_dest
  let passenger_time := finish_time - request.arrivalTime
  let energy_to_origin :=
    if current_floor ≠ origin then
      cfg.segmentEnergyF 0 (((origin - current_floor).natAbs : ℚ) * cfg.floorHeight)
          (direction_of current_floor origin)
        + cfg.standbyEnergyF travel_to_origin
    else 0
  let energy_dwell := cfg.standbyEnergyF dwell
  let energy_to_dest :=
    if origin ≠ destination then
      cfg.segmentEnergyF request.load
          (((destination - origin).natAbs : ℚ) * cfg.floorHeight)
          (direction_of origin destination)
        + cfg.standbyEnergyF travel_to_dest
    else 0
  let energy := energy_to_origin + energy_dwell + energy_to_dest
  let total_cost := cfg.weightTime * passenger_time + cfg.weightEnergy * energy
    + tie_bias * finish_time
  (total_cost, finish_time, passenger_time)

/-- The candidate-batch loop of assign_requests_mpc (lines 71-78): walk the
unassigned list, appending an index when the request is inside the window, or
unconditionally while the batch is not yet full, and stop as soon as the batch
reaches the limit. -/
def candidate_indices_go (window_limit : ℚ) (batch_limit : ℕ) :
    ℕ → List ℕ → List Request → List ℕ
  | _, acc, [] => acc
  | idx, acc, r :: rest =>
    let acc2 :=
      if r.arrivalTime ≤ window_limit then acc ++ [idx]
      else if acc.length < batch_limit then acc ++ [idx]
      else acc
    if batch_limit ≤ acc2.length then acc2
    else candidate_indices_go window_limit batch_limit (idx + 1) acc2 rest

/-- Candidate batch of one assignment iteration (indices into unassigned). -/
def candidate_indices (unassigned : List Request) (batch_limit : ℕ)
    (window_limit : ℚ) : List ℕ :=
  candidate_indices_go window_limit batch_limit 0 [] unassigned

/-- One scored (request, elevator) pair: the source's 6-tuple
(cost, finish_time, passenger_time, request index, elevator id, elevator
position). -/
structure CandOption where
  cost : ℚ
  finish : ℚ
  ptime : ℚ
  reqIdx : ℕ
  eid : ℕ
  elevIdx : ℕ
deriving DecidableEq, Repr

/-- Rolling-horizon assignment state: the sorted unassigned requests, the
queues being built, the plan projections keyed by elevator id (a Python dict
built in elevator order), and the rotating fairness cursor. -/
structure MpcSt where
  unassigned : List Request
  elevators : List Elevator
  plans : List (ℕ × PlanState)
  tieCursor : ℕ
deriving DecidableEq, Repr

/-- plans[eid] (dict lookup; elevator ids are unique per the data model). -/
def plan_get (plans : List (ℕ × PlanState)) (eid : ℕ) : PlanState :=
  ((plans.find? (fun p => p.1 == eid)).getD (0, ⟨0, 0⟩)).2

/-- plans[eid] = v (dict assignment). -/
def plan_set (plans : List (ℕ × PlanState)) (eid : ℕ) (v : PlanState) :
    List (ℕ × PlanState) :=
  plans.map (fun p => if p.1 == eid then (p.1, v) else p)

/-- mpc_scheduler.py apply_assignment: append the request to the chosen
elevator's queue (and, as the source also does, to its served_requests, which
simulate_dispatch later overwrites). -/
def apply_assignment (eid : ℕ) (request : Request) :
    List Elevator → List Elevator
  | [] => []
  | e :: es =>
    if e.eid = eid then
      { e with queue := e.queue ++ [request]
               servedRequests := e.servedRequests ++ [request] } :: es
    else e :: apply_assignment eid request es

/-- All scored (candidate request × elevator) options of one iteration. -/
def candidate_options (cfg : SimCfg) (s : MpcSt) (ci : List ℕ) : List CandOption :=
  ci.flatMap (fun idx =>
    let req := s.unassigned.getD idx default
    s.elevators.enum.map (fun p =>
      let est := estimate_incremental_cost cfg (plan_get s.plans p.2.eid) req
      { cost := est.1, finish := est.2.1, ptime := est.2.2
        reqIdx := idx, eid := p.2.eid, elevIdx := p.1 }))

/-- Commit one (request index, elevator id) pair: pop the request from
unassigned, append it to the chosen elevator's queue, advance that elevator's
plan projection to (request destination, finish time), and set the fairness
cursor (the common tail of both branches of the assignment loop). -/
def mpc_commit (s : MpcSt) (idx eid : ℕ) (finish : ℚ) (cursor : ℕ) : MpcSt :=
  let req := s.unassigned.getD idx default
  { unassigned := s.unassigned.eraseIdx idx
    elevators := apply_assignment eid req s.elevators
    plans := plan_set s.plans eid ⟨req.destination, finish⟩
    tieCursor := cursor }

/-- Lexicographic winner selection among the scored options (mpc_scheduler.py
lines 113-130): minimum cost, then minimum finish time, then minimum
passenger time, each up to the 1e-9 epsilon, then the option closest (by
cyclic index distance) to the fairness cursor; also reports whether the
cursor tie-break was actually exercised (more than one surviving tie). -/
def mpc_select (num_elevators tie_cursor : ℕ) :
    List CandOption → CandOption × Bool
  | [] => (⟨0, 0, 0, 0, 0, 0⟩, false)  -- unreachable: options are non-empty
  | o :: os =>
    let min_cost := (os.map (fun x => x.cost)).foldl min o.cost
    let best_cost := (o :: os).filter (fun x => decide (x.cost ≤ min_cost + eps))
    let min_finish :=
      match best_cost with
      | [] => 0  -- unreachable: the cost minimizer is in best_cost
      | y :: ys => (ys.map (fun x => x.finish)).foldl min y.finish
    let best_finish := best_cost.filter (fun x => decide (x.finish ≤ min_finish + eps))
    let min_ptime :=
      match best_finish with
      | [] => 0  -- unreachable: the finish minimizer is in best_finish
      | y :: ys => (ys.map (fun x => x.ptime)).foldl min y.ptime
    let tied := best_finish.filter (fun x => decide (x.ptime ≤ min_ptime + eps))
    let selected :=
      match tied with
      | [] => o  -- unreachable: the passenger-time minimizer is in tied
      | y :: ys => pick_first_min
          (fun x => (toLex
            ((((x.elevIdx : ℤ) - (tie_cursor : ℤ)) % (num_elevators : ℤ)),
              x.elevIdx) : Lex (ℤ × ℕ))) y ys
    (selected, 1 < tied.length)

/-- Score the candidate batch and commit the winning (request, elevator)
pair; the empty-options branch is the source's least-busy fallback
(mpc_scheduler.py lines 95-111, reachable only with no elevators or an empty
batch). -/
def mpc_assign_one (cfg : SimCfg) (s : MpcSt) (ci : List ℕ) : MpcSt :=
  let options := candidate_options cfg s ci
  match options with
  | [] =>
    let idx := ci.headD 0
    let req := s.unassigned.getD idx default
    let target_id :=
      match s.plans with
      | [] => 0  -- unreachable: plans has one entry per elevator
      | p :: ps => (pick_first_min (fun q => q.2.time) p ps).1
    let ti := s.elevators.findIdx (fun e => e.eid == target_id)
    let target_index := if ti = s.elevators.length then 0 else ti
    let est := estimate_incremental_cost cfg (plan_get s.plans target_id) req
    mpc_commit s idx target_id est.2.1
      ((target_index + 1) % s.elevators.length)
  | o :: os =>
    let sel := mpc_select s.elevators.length s.tieCursor (o :: os)
    mpc_commit s sel.1.reqIdx sel.1.eid sel.1.finish
      (if sel.2 then (sel.1.elevIdx + 1) % s.elevators.length else s.tieCursor)

/-- One iteration of the while-unassigned loop of assign_requests_mpc:
build the candidate batch, score every (request, elevator) pair, pick the
winner, and commit it. -/
def mpc_step (cfg : SimCfg) (horizon : ℚ) (batch_limit : ℕ) (s : MpcSt) : MpcSt :=
  match s.unassigned with
  | [] => s
  | first :: _ =>
    let window_limit := first.arrivalTime + horizon
    let ci0 := candidate_indices s.unassigned batch_limit window_limit
    let ci := if ci0 = [] then List.range (min batch_limit s.unassigned.length) else ci0
    mpc_assign_one cfg s ci

/-- The while-unassigned loop, fueled; every iteration commits exactly one
request, so fuel equal to the number of requests suffices. -/
def mpc_loop (cfg : SimCfg) (horizon : ℚ) (batch_limit : ℕ) :
    ℕ → MpcSt → MpcSt
  | 0, s => s
  | fuel + 1, s =>
    match s.unassigned with
    | [] => s
    | _ :: _ => mpc_loop cfg horizon batch_limit fuel (mpc_step cfg horizon batch_limit s)

/-- Rolling-horizon dispatcher (mpc_scheduler.py assign_requests_mpc).
lookahead_window and max_batch are the source's keyword parameters (the
module-constant defaults used when they are passed as None are external
configuration); a non-positive max_batch is replaced by
max(3 · number of elevators, 1). -/
def assign_requests_mpc (cfg : SimCfg) (requests : List Request)
    (elevators : List Elevator) (lookahead_window : ℚ) (max_batch : ℤ) :
    List Elevator :=
  if elevators = [] then elevators
  else
    let batch_limit : ℕ :=
      if max_batch ≤ 0 then max (elevators.length * 3) 1 else max_batch.toNat
    let elevators2 := elevators.map (fun e => { e with queue := [], servedRequests := [] })
    if requests = [] then elevators2
    else
      let unassigned := sort_by (fun r => r.arrivalTime) requests
      let plans := elevators2.map (fun e => (e.eid, PlanState.mk e.floor 0))
      (mpc_loop cfg lookahead_window batch_limit unassigned.length
        { unassigned := unassigned, elevators := elevators2
          plans := plans, tieCursor := 0 }).elevators

/-- Concatenation of the per-elevator queues built by a policy. -/
def all_queues (es : List Elevator) : List Request :=
  es.flatMap (fun e => e.queue)

/-- The immutable part of a request record (everything but the four
timestamps); the simulator mutates only timestamps. -/
def reqCore (r : Request) : ℕ × ℤ × ℤ × ℚ × ℚ :=
  (r.rid, r.origin, r.destination, r.load, r.arrivalTime)

/-- Conservation invariant of one elevator's simulation: the pending, waiting
and service-log rids are collectively a permutation of the elevator's queue
rids (no request lost or duplicated), every rid names a store record, and the
onboard list is a duplicate-free subset of the service log. -/
structure ConsInv (qids : List ℕ) (s : SimSt) : Prop where
  perm : (s.pending ++ s.waiting ++ s.serviceLog).Perm qids
  qn : qids.Nodup
  storeN : (s.store.map Request.rid).Nodup
  idsStore : ∀ i ∈ qids, i ∈ s.store.map Request.rid
  onboardLog : ∀ i ∈ s.onboard, i ∈ s.serviceLog
  onboardN : s.onboard.Nodup

/-- Timing, capacity and timestamp invariant of one elevator's simulation
(on top of ConsInv): waiting requests have arrived; loads and the capacity are
non-negative; the onboard mass tracks the capacity up to the 1e-9 admission
slack per served request; every recorded stop mass obeys the same bound; and
the service-log timestamps are set and ordered. -/
structure ExtraInv (cfg : SimCfg) (qids : List ℕ) (s : SimSt) : Prop where
  waitArr : ∀ i ∈ s.waiting, (lookup s.store i).arrivalTime ≤ s.time
  loadNN : ∀ i, 0 ≤ (lookup s.store i).load
  capNN : 0 ≤ cfg.capacity
  mass : loadOf s.store s.onboard ≤ cfg.capacity + s.serviceLog.length * eps
  trace : ∀ m ∈ s.stopLoads, m ≤ cfg.capacity + qids.length * eps
  ts1 : ∀ i ∈ s.serviceLog,
    ∃ oa pu, (lookup s.store i).originArrivalTime = some oa
      ∧ (lookup s.store i).pickupTime = some pu
      ∧ (lookup s.store i).arrivalTime ≤ oa ∧ oa ≤ pu ∧ pu ≤ s.time
  ts2 : ∀ i ∈ s.serviceLog, i ∉ s.onboard →
    ∃ pu da dd, (lookup s.store i).pickupTime = some pu
      ∧ (lookup s.store i).destinationArrivalTime = some da
      ∧ (lookup s.store i).dropoffTime = some dd
      ∧ pu ≤ dd ∧ da ≤ dd

/-- A concrete computable configuration standing in for the numeric leaf
functions, used to evaluate the simulator on closed inputs: unit travel time
per floor, unit dwell, energy equal to distance respectively duration. -/
def testCfg : SimCfg :=
  { floorHeight := 3
    capacity := 100
    weightTime := 1
    weightEnergy := 1
    travelTimeF := fun _ a b => ((b - a).natAbs : ℚ)
    holdTimeF := fun _ _ => 1
    segmentEnergyF := fun _ d _ => d
    standbyEnergyF := fun t => t }

/-- A well-formed test request: floor 1 to floor 3, load 50, arrival 0. -/
def testReq : Request :=
  { rid := 1, origin := 1, destination := 3, load := 50, arrivalTime := 0 }

/-- A test elevator at floor 1 with an empty queue. -/
def testElev : Elevator := { eid := 1, floor := 1 }

/-- A request whose load alone exceeds testCfg's capacity of 100. -/
def overweightReq : Request :=
  { rid := 1, origin := 1, destination := 3, load := 200, arrivalTime := 0 }

/-- A request that exactly fills the remaining capacity plus the admission
slack: together with testReq it overfills the car by eps. -/
def slackReq : Request :=
  { rid := 2, origin := 2, destination := 3, load := 50 + eps, arrivalTime := 0 }

/-- An elevator queued with testReq then slackReq. -/
def slackElev : Elevator := { eid := 1, floor := 1, queue := [testReq, slackReq] }

/-- An elevator queued with the overweight request alone. -/
def overweightElev : Elevator :=
  { eid := 1, floor := 1, queue := [overweightReq] }

/-- The state simulate_dispatch reaches on overweightElev and never leaves:
the request is waiting, the cab is empty and the clock stands at 0; only the
stop-mass trace still grows. -/
def stuckSt (sl : List ℚ) : SimSt :=
  { store := [overweightReq]
    pending := []
    waiting := [1]
    onboard := []
    serviceLog := []
    floor := 1
    time := 0
    totalTime := 0
    totalEnergy := 0
    emptyloadEnergy := 0
    stopLoads := sl }

/-- The boarders actually admitted at a stop (the admitted value computed
inside process_stop, as a function of the stop's inputs). -/
def admitted_at (cfg : SimCfg) (s : SimSt) (boarders leavers : List ℕ) : List ℕ :=
  filter_admissible s.store
    (max 0 (cfg.capacity - max 0 (loadOf s.store s.onboard
      - ((leavers.filter (fun i => decide (i ∈ s.onboard))).map
          (fun i => (lookup s.store i).load)).sum))) boarders

/-!  =====  Theorems  =====  -/

/-- C7: compute_objective takes the accumulated wait time, in-cab time,
empty-load energy, running energy and wait penalty and returns a breakdown
whose component costs are the configured weight times the matching input and
whose total is exactly their linear weighted combination. -/
theorem compute_objective_linear_breakdown (w : ObjectiveWeights)
    (wait_time in_cab_time emptyload_energy running_energy wait_penalty_value : ℚ) :
    (compute_objective w wait_time in_cab_time emptyload_energy running_energy
        wait_penalty_value).total
      = w.wait * wait_time + w.ride * in_cab_time
        + w.runningEnergy * running_energy + w.emptyloadEnergy * emptyload_energy
        + w.waitPenalty * wait_penalty_value
    ∧ (compute_objective w wait_time in_cab_time emptyload_energy running_energy
        wait_penalty_value).wait_cost = w.wait * wait_time
    ∧ (compute_objective w wait_time in_cab_time emptyload_energy running_energy
        wait_penalty_value).ride_cost = w.ride * in_cab_time
    ∧ (compute_objective w wait_time in_cab_time emptyload_energy running_energy
        wait_penalty_value).running_energy_cost = w.runningEnergy * running_energy
    ∧ (compute_objective w wait_time in_cab_time emptyload_energy running_energy
        wait_penalty_value).emptyload_energy_cost
        = w.emptyloadEnergy * emptyload_energy := by
  refine ⟨?_, rfl, rfl, rfl, rfl⟩
  simp only [compute_objective]

/-- C8: hold_time equals base + normal_rate · total below the congestion
threshold and base + normal_rate · threshold + congested_rate · (total −
threshold) above it; the two branch expressions agree at total = threshold
(continuity), and hold_time is strictly increasing in the total weight when
both rate coefficients are positive. -/
theorem hold_time_branches_continuity_strict_mono (c : HoldCfg) (b a b2 a2 : ℚ) :
    (b + a ≤ c.threshold → hold_time c b a = c.base + c.normalRate * (b + a))
    ∧ (c.threshold < b + a →
        hold_time c b a = c.base + c.normalRate * c.threshold
          + c.congestedRate * (b + a - c.threshold))
    ∧ (hold_time c c.threshold 0 = c.base + c.normalRate * c.threshold
        ∧ c.base + c.normalRate * c.threshold
            + c.congestedRate * (c.threshold - c.threshold)
          = c.base + c.normalRate * c.threshold)
    ∧ (0 < c.normalRate → 0 < c.congestedRate → b + a < b2 + a2 →
        hold_time c b a < hold_time c b2 a2) := by
  refine ⟨fun h => ?_, fun h => ?_, ⟨?_, by ring⟩, fun hnr hcr hlt => ?_⟩
  · simp [hold_time, h]
  · simp [hold_time, not_le.mpr h]
  · simp [hold_time]
  · simp only [hold_time]
    split_ifs with h1 h2 h2
    · have := mul_lt_mul_of_pos_left hlt hnr
      linarith
    · have h3 : c.normalRate * (b + a) ≤ c.normalRate * c.threshold :=
        mul_le_mul_of_nonneg_left h1 hnr.le
      have h4 : 0 < c.congestedRate * (b2 + a2 - c.threshold) :=
        mul_pos hcr (by linarith)
      linarith
    · linarith
    · have h5 : c.congestedRate * (b + a - c.threshold)
          < c.congestedRate * (b2 + a2 - c.threshold) :=
        mul_lt_mul_of_pos_left (by linarith) hcr
      linarith

/-- Witness for the C8 theorem at a concrete configuration and weights. -/
theorem hold_time_branches_continuity_strict_mono_witness :
    hold_time ⟨2, 1, 3, 10⟩ 4 2 < hold_time ⟨2, 1, 3, 10⟩ 9 5 :=
  (hold_time_branches_continuity_strict_mono ⟨2, 1, 3, 10⟩ 4 2 9 5).2.2.2
    (by norm_num) (by norm_num) (by norm_num)

/-- An exponential-decay blend F + (E − F) · x with x ∈ (0, 1] is positive
when both extremes are. -/
lemma decay_blend_pos {F E x : ℝ} (hF : 0 < F) (hE : 0 < E) (hx0 : 0 < x)
    (hx1 : x ≤ 1) : 0 < F + (E - F) * x := by
  nlinarith

/-- The decay exponent −rate · load / capacity is non-positive for
non-negative rate and load and positive capacity, so its exponential is at
most 1. -/
lemma decay_exp_le_one {rate load cap : ℝ} (hr : 0 ≤ rate) (hl : 0 ≤ load)
    (hc : 0 < cap) : Real.exp (-rate * load / cap) ≤ 1 := by
  rw [Real.exp_le_one_iff]
  apply div_nonpos_of_nonpos_of_nonneg _ hc.le
  nlinarith

/-- acc is positive under positive coefficients, non-negative decay rate and
load, and positive capacity. -/
lemma acc_pos (c : KinCfg) (load : ℝ) (hF : 0 < c.accUpFull)
    (hE : 0 < c.accUpEmpty) (hr : 0 ≤ c.accDecayRate) (hl : 0 ≤ load)
    (hc : 0 < c.capacity) : 0 < acc c load :=
  decay_blend_pos hF hE (Real.exp_pos _) (decay_exp_le_one hr hl hc)

/-- dec is positive under positive coefficients, non-negative decay rate and
load, and positive capacity. -/
lemma dec_pos (c : KinCfg) (load : ℝ) (hF : 0 < c.decDownFull)
    (hE : 0 < c.decDownEmpty) (hr : 0 ≤ c.accDecayRate) (hl : 0 ≤ load)
    (hc : 0 < c.capacity) : 0 < dec c load :=
  decay_blend_pos hF hE (Real.exp_pos _) (decay_exp_le_one hr hl hc)

/-- vmax_down is positive under positive coefficients, non-negative decay
rate and load, and positive capacity. -/
lemma vmax_down_pos (c : KinCfg) (load : ℝ) (hF : 0 < c.maxSpeedDownFull)
    (hE : 0 < c.maxSpeedDownEmpty) (hr : 0 ≤ c.speedDecayRate) (hl : 0 ≤ load)
    (hc : 0 < c.capacity) : 0 < vmax_down c load :=
  decay_blend_pos hF hE (Real.exp_pos _) (decay_exp_le_one hr hl hc)

/-- C9: for every non-negative load and every floor f, under the physical
configuration (positive speed/acceleration extremes, non-negative decay
rates, positive capacity), travel_time(load, f, f) evaluates to 0 seconds,
and no division by zero (or other run-time numeric error) is evaluated on
the same-floor call: the result is some 0, and none marks exactly the runs
that would divide by zero. -/
theorem travel_time_same_floor_zero (c : KinCfg) (load : ℝ) (f : ℤ)
    (h1 : 0 < c.maxSpeedDownFull) (h2 : 0 < c.maxSpeedDownEmpty)
    (h3 : 0 ≤ c.speedDecayRate) (h4 : 0 < c.accUpFull) (h5 : 0 < c.accUpEmpty)
    (h6 : 0 < c.decDownFull) (h7 : 0 < c.decDownEmpty) (h8 : 0 ≤ c.accDecayRate)
    (h9 : 0 < c.capacity) (h10 : 0 ≤ load) :
    travel_time c load f f = some 0 := by
  have hacc := acc_pos c load h4 h5 h8 h10 h9
  have hdec := dec_pos c load h6 h7 h8 h10 h9
  have hv := vmax_down_pos c load h1 h2 h3 h10 h9
  have hcap' : c.capacity ≠ 0 := ne_of_gt h9
  have hsum : acc c load + dec c load ≠ 0 := ne_of_gt (add_pos hacc hdec)
  have hne : ¬(acc c load = 0 ∨ dec c load = 0) := by
    rintro (h | h)
    · exact hacc.ne' h
    · exact hdec.ne' h
  simp only [travel_time, sub_self, Int.natAbs_zero, Nat.cast_zero, zero_mul,
    mul_zero, zero_div, Real.sqrt_zero, if_neg hcap', lt_self_iff_false,
    if_false, if_neg hsum, if_neg hne, if_pos hv.le, Option.some.injEq]

/-- Witness for the C9 theorem at a concrete configuration, load and floor. -/
theorem travel_time_same_floor_zero_witness :
    travel_time
      { floorHeight := 3, capacity := 1000, maxSpeedUpFull := 2,
        maxSpeedUpEmpty := 3, maxSpeedDownFull := 2, maxSpeedDownEmpty := 3,
        speedDecayRate := 1, accUpFull := 1, accUpEmpty := 2,
        decDownFull := 1, decDownEmpty := 2, accDecayRate := 1 } 75 4 4
      = some 0 :=
  travel_time_same_floor_zero _ 75 4 two_pos three_pos zero_le_one
    one_pos two_pos one_pos two_pos zero_le_one (by norm_num) (by norm_num)

/-- pick_first_min returns an element of the candidate list. -/
lemma pick_first_min_mem {α : Type} {κ : Type} [LinearOrder κ] (key : α → κ)
    (b : α) (l : List α) : pick_first_min key b l ∈ b :: l := by
  induction l generalizing b with
  | nil => simp [pick_first_min]
  | cons x xs ih =>
    rw [pick_first_min]
    rcases List.mem_cons.mp (ih (if key x < key b then x else b)) with h1 | h1
    · rw [h1]
      split
      · simp
      · simp
    · simp [h1]

/-- pick_first_min attains the minimal key of the candidate list. -/
lemma pick_first_min_le {α : Type} {κ : Type} [LinearOrder κ] (key : α → κ)
    (b : α) (l : List α) : ∀ y ∈ b :: l, key (pick_first_min key b l) ≤ key y := by
  induction l generalizing b with
  | nil =>
    intro y hy
    rw [List.mem_singleton] at hy
    subst hy
    simp [pick_first_min]
  | cons x xs ih =>
    intro y hy
    rw [pick_first_min]
    have hb : key (if key x < key b then x else b) ≤ key b := by
      split
      · next hc => exact le_of_lt hc
      · exact le_refl _
    have hx : key (if key x < key b then x else b) ≤ key x := by
      split
      · exact le_refl _
      · next hc => exact le_of_not_lt hc
    rcases List.mem_cons.mp hy with rfl | hy2
    · exact le_trans (ih _ _ (List.mem_cons_self _ _)) hb
    · rcases List.mem_cons.mp hy2 with rfl | hy3
      · exact le_trans (ih _ _ (List.mem_cons_self _ _)) hx
      · exact ih _ y (List.mem_cons_of_mem _ hy3)

/-- The second component of an enum member is a list member. -/
lemma snd_mem_of_mem_enum {α : Type} {q : ℕ × α} {l : List α} (hq : q ∈ l.enum) :
    q.2 ∈ l := by
  obtain ⟨i, x⟩ := q
  obtain ⟨h1, h2⟩ := List.mem_enum hq
  rw [h2]
  exact List.getElem_mem h1

/-- insert_by inserts exactly its argument (a permutation fact). -/
lemma insert_by_perm (key : Request → ℚ) (x : Request) (l : List Request) :
    (insert_by key x l).Perm (x :: l) := by
  induction l with
  | nil => simp [insert_by]
  | cons y ys ih =>
    rw [insert_by]
    split
    · exact (ih.cons y).trans (List.Perm.swap x y ys)
    · exact List.Perm.refl _

/-- sort_by is a permutation of its input (Python sorted returns a
rearrangement). -/
lemma sort_by_perm (key : Request → ℚ) (l : List Request) :
    (sort_by key l).Perm l := by
  suffices h : ∀ (l acc : List Request),
      (l.foldl (fun acc x => insert_by key x acc) acc).Perm (acc ++ l) by
    simpa [sort_by] using h l []
  intro l
  induction l with
  | nil => intro acc; simp
  | cons x xs ih =>
    intro acc
    rw [List.foldl_cons]
    refine (ih (insert_by key x acc)).trans ?_
    exact ((insert_by_perm key x acc).append_right xs).trans List.perm_middle.symm

/-- insert_by preserves sortedness by the key. -/
lemma insert_by_sorted (key : Request → ℚ) (x : Request) (l : List Request)
    (h : List.Pairwise (fun a b => key a ≤ key b) l) :
    List.Pairwise (fun a b => key a ≤ key b) (insert_by key x l) := by
  induction l with
  | nil => simp [insert_by]
  | cons y ys ih =>
    rw [insert_by]
    rcases List.pairwise_cons.mp h with ⟨hy, hys⟩
    split_ifs with hc
    · refine List.pairwise_cons.mpr ⟨?_, ih hys⟩
      intro z hz
      rcases List.mem_cons.mp ((insert_by_perm key x ys).mem_iff.mp hz) with rfl | hz2
      · exact hc
      · exact hy z hz2
    · refine List.pairwise_cons.mpr ⟨?_, h⟩
      intro z hz
      rcases List.mem_cons.mp hz with rfl | hz2
      · exact le_of_not_le hc
      · exact le_trans (le_of_not_le hc) (hy z hz2)

/-- sort_by sorts by the key (ascending). -/
lemma sort_by_sorted (key : Request → ℚ) (l : List Request) :
    List.Pairwise (fun a b => key a ≤ key b) (sort_by key l) := by
  suffices h : ∀ (l acc : List Request),
      List.Pairwise (fun a b => key a ≤ key b) acc →
      List.Pairwise (fun a b => key a ≤ key b)
        (l.foldl (fun acc x => insert_by key x acc) acc) from
    h l [] (by simp)
  intro l
  induction l with
  | nil => intro acc h; simpa using h
  | cons x xs ih =>
    intro acc h
    exact ih _ (insert_by_sorted key x acc h)

/-- C5: assign_requests_greedy processes requests in ascending arrival order
(it folds the assignment step over a stable ascending sort of the requests),
each step assigns the request to the elevator minimizing the lexicographic
key (queue length, |forecast floor − origin|, elevator id) — with Python min
taking the first, hence lowest-positioned, minimizer — then updates that
elevator's forecast floor to the request's origin and never reads the
destination; and on the concrete tie scenario (two elevators at floor 1, one
request with origin 1) the request goes to the elevator with id 1. -/
theorem assign_requests_greedy_spec :
    (∀ (requests : List Request) (elevators : List Elevator), elevators ≠ [] →
      assign_requests_greedy requests elevators
        = ((sort_by (fun r => r.arrivalTime) requests).foldl greedy_step
            (elevators.map
              (fun e => ({ e with queue := [], servedRequests := [] }, e.floor)))).map
            Prod.fst)
    ∧ (∀ (key : Request → ℚ) (l : List Request),
        (sort_by key l).Perm l
          ∧ List.Pairwise (fun x y => key x ≤ key y) (sort_by key l))
    ∧ (∀ (r : Request) (gs : List (Elevator × ℤ)), gs ≠ [] →
        (greedy_choice r gs).2 ∈ gs
        ∧ (∀ g ∈ gs, greedy_key r (greedy_choice r gs).2 ≤ greedy_key r g)
        ∧ greedy_step gs r
            = gs.set (greedy_choice r gs).1
                ({ (greedy_choice r gs).2.1 with
                    queue := (greedy_choice r gs).2.1.queue ++ [r] }, r.origin)
        ∧ (∀ d : ℤ, greedy_choice { r with destination := d } gs = greedy_choice r gs))
    ∧ assign_requests_greedy
        [{ rid := 1, origin := 1, destination := 2, load := 60, arrivalTime := 0 }]
        [{ eid := 1, floor := 1 }, { eid := 2, floor := 1 }]
      = [{ eid := 1, floor := 1,
            queue := [{ rid := 1, origin := 1, destination := 2, load := 60,
                        arrivalTime := 0 }] },
         { eid := 2, floor := 1 }] := by
  refine ⟨?_, ?_, ?_, by decide⟩
  · intro requests elevators hne
    simp [assign_requests_greedy, hne]
  · intro key l
    exact ⟨sort_by_perm key l, sort_by_sorted key l⟩
  · intro r gs hne
    obtain ⟨g, t, rfl⟩ := List.exists_cons_of_ne_nil hne
    have hgc : greedy_choice r (g :: t)
        = pick_first_min (fun q => greedy_key r q.2) (0, g) (List.enumFrom 1 t) := by
      simp [greedy_choice, List.enum_cons]
    refine ⟨?_, ?_, ?_, fun d => rfl⟩
    · have henum : greedy_choice r (g :: t) ∈ (g :: t).enum := by
        rw [List.enum_cons, hgc]
        exact pick_first_min_mem _ _ _
      exact snd_mem_of_mem_enum henum
    · intro gg hgg
      obtain ⟨i, hi, hgl⟩ := List.mem_iff_getElem.mp hgg
      have hi2 : i < (g :: t).enum.length := by
        simpa using hi
      have hmemEnum : (i, gg) ∈ (g :: t).enum := by
        have h3 := List.getElem_enum (g :: t) i hi2
        rw [hgl] at h3
        exact h3 ▸ List.getElem_mem hi2
      rw [List.enum_cons] at hmemEnum
      have h4 := pick_first_min_le (fun q => greedy_key r q.2) (0, g)
        (List.enumFrom 1 t) (i, gg) hmemEnum
      rw [hgc]
      exact h4
    · rfl

/-- Witness for the C5 theorem at concrete requests and elevators. -/
theorem assign_requests_greedy_spec_witness :
    assign_requests_greedy
        [{ rid := 7, origin := 2, destination := 9, load := 80, arrivalTime := 5 }]
        [{ eid := 1, floor := 4 }, { eid := 2, floor := 2 }]
      = ((sort_by (fun r => r.arrivalTime)
            [{ rid := 7, origin := 2, destination := 9, load := 80, arrivalTime := 5 }]).foldl
          greedy_step
          ([({ eid := 1, floor := 4 } : Elevator),
            { eid := 2, floor := 2 }].map
            (fun e => ({ e with queue := [], servedRequests := [] }, e.floor)))).map
          Prod.fst :=
  assign_requests_greedy_spec.1
    [{ rid := 7, origin := 2, destination := 9, load := 80, arrivalTime := 5 }]
    [{ eid := 1, floor := 4 }, { eid := 2, floor := 2 }] (by decide)

/-- The batch loop always appends the next index while the batch is not full
(both branches append), so it returns the consecutive indices from idx, capped
by the remaining room and the remaining list. -/
lemma candidate_indices_go_spec (w : ℚ) (limit : ℕ) :
    ∀ (rest : List Request) (idx : ℕ) (acc : List ℕ), acc.length < limit →
      candidate_indices_go w limit idx acc rest
        = acc ++ List.range' idx (min (limit - acc.length) rest.length) := by
  intro rest
  induction rest with
  | nil =>
    intro idx acc h
    simp [candidate_indices_go]
  | cons r rs ih =>
    intro idx acc h
    rw [candidate_indices_go]
    have hacc2 : (if r.arrivalTime ≤ w then acc ++ [idx]
        else if acc.length < limit then acc ++ [idx] else acc) = acc ++ [idx] := by
      split_ifs <;> first | rfl | omega
    rw [hacc2]
    have hlen1 : (acc ++ [idx]).length = acc.length + 1 := by
      simp
    by_cases hfull : limit ≤ (acc ++ [idx]).length
    · rw [if_pos hfull]
      rw [hlen1] at hfull
      have hmin : min (limit - acc.length) (r :: rs).length = 1 := by
        rw [List.length_cons]
        omega
      rw [hmin, List.range'_one]
    · rw [if_neg hfull]
      rw [hlen1] at hfull
      push_neg at hfull
      rw [ih (idx + 1) (acc ++ [idx]) (by omega), List.append_assoc]
      congr 1
      have hmin : min (limit - acc.length) (r :: rs).length
          = min (limit - (acc ++ [idx]).length) rs.length + 1 := by
        rw [hlen1, List.length_cons]
        omega
      rw [hmin, List.range'_succ]
      simp

/-- The candidate batch is exactly the first min(batch limit, list length)
indices, for any positive batch limit (the lookahead window can only cause
indices to be appended earlier, never skipped). -/
lemma candidate_indices_eq_range (u : List Request) (limit : ℕ) (w : ℚ)
    (h : 1 ≤ limit) :
    candidate_indices u limit w = List.range (min limit u.length) := by
  rw [candidate_indices, candidate_indices_go_spec w limit u 0 [] (by simpa using h),
    List.range_eq_range']
  simp

/-- C6: with the unassigned requests sorted by arrival time (as
assign_requests_mpc maintains) and t0 the earliest unassigned arrival, the
candidate batch contains every unassigned request with arrival_time ≤ t0 +
window up to the max_batch cap, is padded with the next-earliest requests
(it is a downward-closed set of positions, and a request beyond the window
enters only when every in-window request is already in), and is non-empty
whenever unassigned requests remain, so the loop never stalls. -/
theorem candidate_batch_spec (first : Request) (rest : List Request)
    (batch_limit : ℕ) (horizon : ℚ) (hlim : 1 ≤ batch_limit)
    (hsort : List.Pairwise (fun x y => x.arrivalTime ≤ y.arrivalTime) (first :: rest)) :
    candidate_indices (first :: rest) batch_limit (first.arrivalTime + horizon)
        = List.range (min batch_limit (first :: rest).length)
    ∧ candidate_indices (first :: rest) batch_limit (first.arrivalTime + horizon) ≠ []
    ∧ (∀ j, j < (first :: rest).length →
        ((first :: rest).getD j default).arrivalTime ≤ first.arrivalTime + horizon →
        j < batch_limit →
        j ∈ candidate_indices (first :: rest) batch_limit (first.arrivalTime + horizon))
    ∧ (∀ j ∈ candidate_indices (first :: rest) batch_limit
          (first.arrivalTime + horizon),
        ∀ k, k < j →
          k ∈ candidate_indices (first :: rest) batch_limit (first.arrivalTime + horizon))
    ∧ (∀ j ∈ candidate_indices (first :: rest) batch_limit
          (first.arrivalTime + horizon),
        first.arrivalTime + horizon < ((first :: rest).getD j default).arrivalTime →
        ∀ k, k < (first :: rest).length →
          ((first :: rest).getD k default).arrivalTime ≤ first.arrivalTime + horizon →
          k ∈ candidate_indices (first :: rest) batch_limit (first.arrivalTime + horizon)) := by
  have hrange := candidate_indices_eq_range (first :: rest) batch_limit
    (first.arrivalTime + horizon) hlim
  refine ⟨hrange, ?_, ?_, ?_, ?_⟩
  · rw [hrange]
    have h1 : 1 ≤ min batch_limit (first :: rest).length := by
      simp only [List.length_cons]
      omega
    intro hcon
    rw [List.range_eq_nil] at hcon
    omega
  · intro j hj hwin hjb
    rw [hrange, List.mem_range]
    omega
  · intro j hj k hk
    rw [hrange, List.mem_range] at hj ⊢
    omega
  · intro j hj hjout k hk hkin
    rw [hrange, List.mem_range] at hj ⊢
    rcases lt_or_le k batch_limit with hkb | hkb
    · omega
    · exfalso
      have hjk : j < k := by omega
      have hmono := List.pairwise_iff_getElem.mp hsort j k (by omega) hk hjk
      rw [List.getD_eq_getElem _ _ (by omega : j < (first :: rest).length)] at hjout
      rw [List.getD_eq_getElem _ _ hk] at hkin
      exact absurd (le_trans hmono hkin) (not_le.mpr hjout)

/-- Witness for the C6 theorem at a concrete sorted request list. -/
theorem candidate_batch_spec_witness :
    candidate_indices
        [{ rid := 1, origin := 1, destination := 2, load := 60, arrivalTime := 0 },
         { rid := 2, origin := 3, destination := 1, load := 70, arrivalTime := 4 },
         { rid := 3, origin := 2, destination := 5, load := 50, arrivalTime := 100 }]
        2 ((0 : ℚ) + 10) ≠ [] :=
  (candidate_batch_spec
    { rid := 1, origin := 1, destination := 2, load := 60, arrivalTime := 0 }
    [{ rid := 2, origin := 3, destination := 1, load := 70, arrivalTime := 4 },
     { rid := 3, origin := 2, destination := 5, load := 50, arrivalTime := 100 }]
    2 10 (by decide) (by decide)).2.1

/-- Removing index i and re-adding the element at i is a permutation. -/
lemma eraseIdx_getD_perm {α : Type} [Inhabited α] :
    ∀ (l : List α) (i : ℕ), i < l.length →
      (l.getD i default :: l.eraseIdx i).Perm l := by
  intro l
  induction l with
  | nil =>
    intro i h
    simp at h
  | cons x xs ih =>
    intro i h
    cases i with
    | zero => simp
    | succ n =>
      have h2 : n < xs.length := by
        simpa using h
      have h3 := ih n h2
      simp only [List.getD_cons_succ, List.eraseIdx_cons_succ]
      exact (List.Perm.swap x (xs.getD n default) (xs.eraseIdx n)).trans (h3.cons x)

/-- The option chosen by mpc_select is one of the given options. -/
lemma mpc_select_mem (n c : ℕ) (o : CandOption) (os : List CandOption) :
    (mpc_select n c (o :: os)).1 ∈ o :: os := by
  simp only [mpc_select]
  split
  · exact List.mem_cons_self _ _
  · next y ys heq =>
    have hmem := pick_first_min_mem
      (fun x => (toLex
        ((((x.elevIdx : ℤ) - (c : ℤ)) % (n : ℤ)), x.elevIdx) : Lex (ℤ × ℕ))) y ys
    rw [← heq] at hmem
    exact List.mem_of_mem_filter (List.mem_of_mem_filter (List.mem_of_mem_filter hmem))

/-- apply_assignment with a matching elevator id adds exactly the request to
the combined queues. -/
lemma apply_assignment_queues (eid : ℕ) (r : Request) :
    ∀ es : List Elevator, (∃ e ∈ es, e.eid = eid) →
      (all_queues (apply_assignment eid r es)).Perm (r :: all_queues es) := by
  intro es
  induction es with
  | nil =>
    intro h
    simp at h
  | cons e es ih =>
    intro h
    rw [apply_assignment]
    by_cases hc : e.eid = eid
    · rw [if_pos hc]
      simp only [all_queues, List.flatMap_cons]
      rw [List.append_assoc]
      exact List.perm_middle
    · rw [if_neg hc]
      obtain ⟨e2, he2, heid⟩ := h
      rcases List.mem_cons.mp he2 with rfl | he3
      · exact absurd heid hc
      simp only [all_queues, List.flatMap_cons]
      refine (List.Perm.append_left e.queue ?_).trans List.perm_middle
      exact ih ⟨e2, he3, heid⟩

/-- apply_assignment leaves the elevator ids unchanged. -/
lemma apply_assignment_eids (eid : ℕ) (r : Request) :
    ∀ es : List Elevator,
      (apply_assignment eid r es).map Elevator.eid = es.map Elevator.eid := by
  intro es
  induction es with
  | nil => rfl
  | cons e es ih =>
    rw [apply_assignment]
    by_cases hc : e.eid = eid
    · rw [if_pos hc]
      simp
    · rw [if_neg hc]
      simp [ih]

/-- plan_set leaves the plan keys unchanged. -/
lemma plan_set_keys (ps : List (ℕ × PlanState)) (k : ℕ) (v : PlanState) :
    (plan_set ps k v).map Prod.fst = ps.map Prod.fst := by
  simp only [plan_set, List.map_map]
  apply List.map_congr_left
  intro p _
  by_cases hc : p.1 = k <;> simp [hc]

/-- Every scored option points to a batch index and an existing elevator. -/
lemma candidate_options_mem {cfg : SimCfg} {s : MpcSt} {ci : List ℕ}
    {x : CandOption} (hx : x ∈ candidate_options cfg s ci) :
    x.reqIdx ∈ ci ∧ ∃ e ∈ s.elevators, e.eid = x.eid := by
  obtain ⟨idx, hidx, hx2⟩ := List.mem_flatMap.mp hx
  obtain ⟨p, hp, rfl⟩ := List.mem_map.mp hx2
  exact ⟨hidx, p.2, snd_mem_of_mem_enum hp, rfl⟩

/-- With a non-empty batch and at least one elevator there is at least one
scored option. -/
lemma candidate_options_ne_nil {cfg : SimCfg} {s : MpcSt} {ci : List ℕ}
    (hci : ci ≠ []) (he : s.elevators ≠ []) :
    candidate_options cfg s ci ≠ [] := by
  obtain ⟨i, ct, rfl⟩ := List.exists_cons_of_ne_nil hci
  obtain ⟨e, et, heq⟩ := List.exists_cons_of_ne_nil he
  intro hcon
  have hmem : _ ∈ candidate_options cfg s (i :: ct) := List.mem_flatMap.mpr
    ⟨i, List.mem_cons_self _ _, List.mem_map.mpr
      ⟨(0, e), by rw [heq, List.enum_cons]; exact List.mem_cons_self _ _, rfl⟩⟩
  rw [hcon] at hmem
  exact List.not_mem_nil _ hmem

/-- Committing a pair pops exactly one request from unassigned, appends it to
exactly one queue, and preserves elevator ids and plan keys. -/
lemma mpc_commit_effect (s : MpcSt) (idx eid : ℕ) (finish : ℚ) (cur : ℕ)
    (hidx : idx < s.unassigned.length) (heid : ∃ e ∈ s.elevators, e.eid = eid) :
    (mpc_commit s idx eid finish cur).unassigned.length + 1 = s.unassigned.length
    ∧ ((mpc_commit s idx eid finish cur).unassigned
        ++ all_queues (mpc_commit s idx eid finish cur).elevators).Perm
        (s.unassigned ++ all_queues s.elevators)
    ∧ (mpc_commit s idx eid finish cur).elevators.map Elevator.eid
        = s.elevators.map Elevator.eid
    ∧ (mpc_commit s idx eid finish cur).plans.map Prod.fst
        = s.plans.map Prod.fst := by
  refine ⟨?_, ?_, apply_assignment_eids eid _ s.elevators, plan_set_keys s.plans eid _⟩
  · simp only [mpc_commit, List.length_eraseIdx, if_pos hidx]
    omega
  · simp only [mpc_commit]
    refine (List.Perm.append_left _
      (apply_assignment_queues eid _ s.elevators heid)).trans ?_
    refine List.perm_middle.trans ?_
    have h2 := (eraseIdx_getD_perm s.unassigned idx hidx).append_right
      (all_queues s.elevators)
    exact h2

/-- One assignment iteration over a non-empty in-range batch pops exactly one
request into exactly one queue and preserves elevator ids and plan keys. -/
lemma mpc_assign_one_effect (cfg : SimCfg) (s : MpcSt) (ci : List ℕ)
    (hci : ci ≠ []) (hbound : ∀ i ∈ ci, i < s.unassigned.length)
    (helev : s.elevators ≠ []) :
    (mpc_assign_one cfg s ci).unassigned.length + 1 = s.unassigned.length
    ∧ ((mpc_assign_one cfg s ci).unassigned
        ++ all_queues (mpc_assign_one cfg s ci).elevators).Perm
        (s.unassigned ++ all_queues s.elevators)
    ∧ (mpc_assign_one cfg s ci).elevators.map Elevator.eid
        = s.elevators.map Elevator.eid
    ∧ (mpc_assign_one cfg s ci).plans.map Prod.fst = s.plans.map Prod.fst := by
  simp only [mpc_assign_one]
  rcases hopt : candidate_options cfg s ci with _ | ⟨o, os⟩
  · exact absurd hopt (candidate_options_ne_nil hci helev)
  · have hsel := mpc_select_mem s.elevators.length s.tieCursor o os
    have hselopt : (mpc_select s.elevators.length s.tieCursor (o :: os)).1
        ∈ candidate_options cfg s ci := by
      rw [hopt]
      exact hsel
    obtain ⟨hreq, heid⟩ := candidate_options_mem hselopt
    exact mpc_commit_effect s _ _ _ _ (hbound _ hreq) heid

/-- One iteration of the assignment loop pops exactly one request into
exactly one queue (positive batch limit, non-empty unassigned list, at least
one elevator). -/
lemma mpc_step_effect (cfg : SimCfg) (horizon : ℚ) (batch_limit : ℕ) (s : MpcSt)
    (hlim : 1 ≤ batch_limit) (hne : s.unassigned ≠ []) (helev : s.elevators ≠ []) :
    (mpc_step cfg horizon batch_limit s).unassigned.length + 1
        = s.unassigned.length
    ∧ ((mpc_step cfg horizon batch_limit s).unassigned
        ++ all_queues (mpc_step cfg horizon batch_limit s).elevators).Perm
        (s.unassigned ++ all_queues s.elevators)
    ∧ (mpc_step cfg horizon batch_limit s).elevators.map Elevator.eid
        = s.elevators.map Elevator.eid
    ∧ (mpc_step cfg horizon batch_limit s).plans.map Prod.fst
        = s.plans.map Prod.fst := by
  obtain ⟨first, rest, hu⟩ := List.exists_cons_of_ne_nil hne
  have hrange := candidate_indices_eq_range s.unassigned batch_limit
    (first.arrivalTime + horizon) hlim
  have hlen : 1 ≤ min batch_limit s.unassigned.length := by
    rw [hu]
    simp only [List.length_cons]
    omega
  have hci_ne : candidate_indices s.unassigned batch_limit
      (first.arrivalTime + horizon) ≠ [] := by
    rw [hrange]
    intro hcon
    rw [List.range_eq_nil] at hcon
    omega
  have hstep : mpc_step cfg horizon batch_limit s
      = mpc_assign_one cfg s
          (candidate_indices s.unassigned batch_limit
            (first.arrivalTime + horizon)) := by
    rw [mpc_step.eq_def, hu]
    simp only [← hu]
    rw [if_neg hci_ne]
  rw [hstep]
  refine mpc_assign_one_effect cfg s _ hci_ne ?_ helev
  intro i hi
  rw [hrange, List.mem_range] at hi
  omega

/-- The assignment loop with fuel at least the number of unassigned requests
assigns every request: it ends with an empty unassigned list and the combined
queues gain exactly the unassigned requests. -/
lemma mpc_loop_spec (cfg : SimCfg) (horizon : ℚ) (batch_limit : ℕ)
    (hlim : 1 ≤ batch_limit) :
    ∀ (fuel : ℕ) (s : MpcSt), s.unassigned.length ≤ fuel → s.elevators ≠ [] →
      (mpc_loop cfg horizon batch_limit fuel s).unassigned = []
      ∧ (all_queues (mpc_loop cfg horizon batch_limit fuel s).elevators).Perm
          (s.unassigned ++ all_queues s.elevators) := by
  intro fuel
  induction fuel with
  | zero =>
    intro s hle he
    have h0 : s.unassigned = [] := List.eq_nil_of_length_eq_zero (by omega)
    rw [mpc_loop]
    refine ⟨h0, ?_⟩
    rw [h0]
    exact List.Perm.refl _
  | succ n ih =>
    intro s hle he
    cases hu : s.unassigned with
    | nil =>
      simp only [mpc_loop, hu]
      exact ⟨trivial, List.Perm.refl _⟩
    | cons first rest =>
      simp only [mpc_loop, hu]
      have hne2 : s.unassigned ≠ [] := by
        rw [hu]
        simp
      obtain ⟨hlen, hperm, heids, _⟩ :=
        mpc_step_effect cfg horizon batch_limit s hlim hne2 he
      have he2 : (mpc_step cfg horizon batch_limit s).elevators ≠ [] := by
        intro hcon
        rw [hcon] at heids
        exact he (List.map_eq_nil_iff.mp heids.symm)
      have hle2 : (mpc_step cfg horizon batch_limit s).unassigned.length ≤ n := by
        omega
      obtain ⟨hdone, hq⟩ := ih (mpc_step cfg horizon batch_limit s) hle2 he2
      refine ⟨hdone, ?_⟩
      rw [hu] at hperm
      exact hq.trans hperm

/-- Clearing every queue leaves no queued request. -/
lemma all_queues_cleared (es : List Elevator) :
    all_queues (es.map (fun e => { e with queue := [], servedRequests := [] })) = [] := by
  induction es with
  | nil => rfl
  | cons e es ih =>
    rw [List.map_cons]
    simpa [all_queues, List.flatMap_cons] using ih

/-- assign_requests_mpc appends every request to exactly one elevator queue:
the concatenated queues are a permutation of the input requests (for any
lookahead window and any max_batch). -/
lemma assign_requests_mpc_conserves (cfg : SimCfg) (requests : List Request)
    (elevators : List Elevator) (w : ℚ) (m : ℤ) (hne : elevators ≠ []) :
    (all_queues (assign_requests_mpc cfg requests elevators w m)).Perm requests := by
  have h1 : 1 ≤ (if m ≤ 0 then max (elevators.length * 3) 1 else m.toNat) := by
    split_ifs with hm
    · omega
    · omega
  by_cases hr : requests = []
  · simp only [assign_requests_mpc, if_neg hne, if_pos hr]
    rw [all_queues_cleared, hr]
  · simp only [assign_requests_mpc, if_neg hne, if_neg hr]
    obtain ⟨hdone, hq⟩ := mpc_loop_spec cfg w _ h1
      (sort_by (fun r => r.arrivalTime) requests).length
      { unassigned := sort_by (fun r => r.arrivalTime) requests
        elevators := elevators.map (fun e => { e with queue := [], servedRequests := [] })
        plans := (elevators.map
            (fun e => { e with queue := [], servedRequests := [] })).map
          (fun e => (e.eid, PlanState.mk e.floor 0))
        tieCursor := 0 }
      (le_refl _)
      (by
        simp only [ne_eq, List.map_eq_nil_iff]
        exact hne)
    refine hq.trans ?_
    rw [all_queues_cleared, List.append_nil]
    exact sort_by_perm _ _

/-- C10: calling assign_requests_mpc with max_batch ≤ 0 and a non-empty
elevator list silently replaces the batch limit by max(3 · number of
elevators, 1) — the call computes exactly what the call with that positive
limit computes — and it still terminates with every request appended to
exactly one elevator's queue (the concatenated queues are a permutation of
the input). -/
theorem assign_requests_mpc_nonpositive_batch (cfg : SimCfg)
    (requests : List Request) (elevators : List Elevator) (w : ℚ) (m : ℤ)
    (hm : m ≤ 0) (hne : elevators ≠ []) :
    assign_requests_mpc cfg requests elevators w m
      = assign_requests_mpc cfg requests elevators w
          ((max (3 * elevators.length) 1 : ℕ) : ℤ)
    ∧ (all_queues (assign_requests_mpc cfg requests elevators w m)).Perm requests := by
  refine ⟨?_, assign_requests_mpc_conserves cfg requests elevators w m hne⟩
  have hA : (if m ≤ 0 then max (elevators.length * 3) 1 else m.toNat)
      = max (elevators.length * 3) 1 := if_pos hm
  have hcond : ¬(((max (3 * elevators.length) 1 : ℕ) : ℤ) ≤ 0) := by
    have h2 : (1 : ℕ) ≤ max (3 * elevators.length) 1 := le_max_right _ _
    omega
  have hB : (if ((max (3 * elevators.length) 1 : ℕ) : ℤ) ≤ 0
        then max (elevators.length * 3) 1
        else ((max (3 * elevators.length) 1 : ℕ) : ℤ).toNat)
      = max (elevators.length * 3) 1 := by
    rw [if_neg hcond, Int.toNat_natCast, Nat.mul_comm]
  simp only [assign_requests_mpc, hA, hB]

/-- Witness for the C10 theorem at a concrete configuration. -/
theorem assign_requests_mpc_nonpositive_batch_witness :
    (all_queues (assign_requests_mpc
        { floorHeight := 3, capacity := 100, weightTime := 1, weightEnergy := 1,
          travelTimeF := fun _ a b => ((b - a).natAbs : ℚ),
          holdTimeF := fun b a => 1 + b + a,
          segmentEnergyF := fun _ d _ => d,
          standbyEnergyF := fun t => t }
        [{ rid := 1, origin := 1, destination := 5, load := 60, arrivalTime := 0 },
         { rid := 2, origin := 2, destination := 7, load := 70, arrivalTime := 3 }]
        [{ eid := 1, floor := 1 }, { eid := 2, floor := 1 }] 30 (-2))).Perm
      [{ rid := 1, origin := 1, destination := 5, load := 60, arrivalTime := 0 },
       { rid := 2, origin := 2, destination := 7, load := 70, arrivalTime := 3 }] :=
  (assign_requests_mpc_nonpositive_batch
    { floorHeight := 3, capacity := 100, weightTime := 1, weightEnergy := 1,
      travelTimeF := fun _ a b => ((b - a).natAbs : ℚ),
      holdTimeF := fun b a => 1 + b + a,
      segmentEnergyF := fun _ d _ => d,
      standbyEnergyF := fun t => t }
    [{ rid := 1, origin := 1, destination := 5, load := 60, arrivalTime := 0 },
     { rid := 2, origin := 2, destination := 7, load := 70, arrivalTime := 3 }]
    [{ eid := 1, floor := 1 }, { eid := 2, floor := 1 }] 30 (-2)
    (by decide) (by decide)).2

/-- The rid-lookup predicate is unchanged by an rid-preserving update map. -/
lemma updReq_pred (i j : ℕ) (f : Request → Request)
    (hf : ∀ r, (f r).rid = r.rid) :
    ((fun r : Request => r.rid == j) ∘ fun r => if r.rid == i then f r else r)
      = fun r : Request => r.rid == j := by
  funext r
  simp only [Function.comp_apply]
  split
  · rw [hf r]
  · rfl

/-- updReq with an rid-preserving update leaves the store rids unchanged. -/
lemma updReq_rids (st : List Request) (i : ℕ) (f : Request → Request)
    (hf : ∀ r, (f r).rid = r.rid) :
    (updReq st i f).map Request.rid = st.map Request.rid := by
  simp only [updReq, List.map_map]
  apply List.map_congr_left
  intro r _
  simp only [Function.comp_apply]
  split
  · exact hf r
  · rfl

/-- Looking up a different rid is unaffected by updReq. -/
lemma lookup_updReq_ne (st : List Request) (i : ℕ) (f : Request → Request)
    (hf : ∀ r, (f r).rid = r.rid) (j : ℕ) (hne : j ≠ i) :
    lookup (updReq st i f) j = lookup st j := by
  rw [lookup, lookup, updReq, List.find?_map, updReq_pred i j f hf]
  cases hfind : st.find? (fun r => r.rid == j) with
  | none => rfl
  | some r =>
    have hr : r.rid = j := by
      simpa using List.find?_some hfind
    simp only [Option.map_some', Option.getD_some]
    rw [if_neg]
    simp [hr, hne]

/-- Looking up a present rid after updReq applies the update. -/
lemma lookup_updReq_self (st : List Request) (i : ℕ) (f : Request → Request)
    (hf : ∀ r, (f r).rid = r.rid) (hmem : i ∈ st.map Request.rid) :
    lookup (updReq st i f) i = f (lookup st i) := by
  rw [lookup, lookup, updReq, List.find?_map, updReq_pred i i f hf]
  cases hfind : st.find? (fun r => r.rid == i) with
  | none =>
    exfalso
    rw [List.find?_eq_none] at hfind
    obtain ⟨r, hr, hrid⟩ := List.mem_map.mp hmem
    exact hfind r hr (by simp [hrid])
  | some r =>
    have hr : r.rid = i := by
      simpa using List.find?_some hfind
    simp only [Option.map_some', Option.getD_some]
    rw [if_pos (by simp [hr])]

/-- Looking up a present rid returns a record carrying that rid. -/
lemma lookup_rid (st : List Request) (i : ℕ) (hmem : i ∈ st.map Request.rid) :
    (lookup st i).rid = i := by
  rw [lookup]
  cases hfind : st.find? (fun r => r.rid == i) with
  | none =>
    exfalso
    rw [List.find?_eq_none] at hfind
    obtain ⟨r, hr, hrid⟩ := List.mem_map.mp hmem
    exact hfind r hr (by simp [hrid])
  | some r =>
    have hr := List.find?_some hfind
    simpa using hr

/-- A core-preserving update leaves every lookup's core unchanged. -/
lemma lookup_updReq_core (st : List Request) (i : ℕ) (f : Request → Request)
    (hf : ∀ r, reqCore (f r) = reqCore r) (j : ℕ) :
    reqCore (lookup (updReq st i f) j) = reqCore (lookup st j) := by
  have hrid : ∀ r, (f r).rid = r.rid := fun r => congrArg Prod.fst (hf r)
  by_cases hj : j = i
  · subst hj
    by_cases hmem : j ∈ st.map Request.rid
    · rw [lookup_updReq_self st j f hrid hmem, hf]
    · have hid : updReq st j f = st := by
        rw [updReq]
        have h2 : st.map (fun r => if r.rid == j then f r else r) = st.map id := by
          apply List.map_congr_left
          intro r hrmem
          have : r.rid ≠ j := by
            intro hcon
            exact hmem (List.mem_map.mpr ⟨r, hrmem, hcon⟩)
          simp [this]
        rw [h2, List.map_id]
      rw [hid]
  · rw [lookup_updReq_ne st i f hrid j hj]

/-- Projections of the core equality. -/
lemma reqCore_eq_load {r r2 : Request} (h : reqCore r = reqCore r2) :
    r.load = r2.load := congrArg (fun p => p.2.2.2.1) h

lemma reqCore_eq_arrival {r r2 : Request} (h : reqCore r = reqCore r2) :
    r.arrivalTime = r2.arrivalTime := congrArg (fun p => p.2.2.2.2) h

lemma reqCore_eq_destination {r r2 : Request} (h : reqCore r = reqCore r2) :
    r.destination = r2.destination := congrArg (fun p => p.2.2.1) h

lemma reqCore_eq_origin {r r2 : Request} (h : reqCore r = reqCore r2) :
    r.origin = r2.origin := congrArg (fun p => p.2.1) h

/-- loadOf only reads cores, so it is stable under core-preserving store
changes. -/
lemma loadOf_congr {st st2 : List Request}
    (h : ∀ j, reqCore (lookup st2 j) = reqCore (lookup st j)) (l : List ℕ) :
    loadOf st2 l = loadOf st l := by
  rw [loadOf, loadOf]
  congr 1
  apply List.map_congr_left
  intro i _
  exact reqCore_eq_load (h i)

/-- Fold-erase produces a sublist. -/
lemma foldl_erase_sublist : ∀ (L l : List ℕ), (L.foldl List.erase l).Sublist l := by
  intro L
  induction L with
  | nil => intro l; exact List.Sublist.refl l
  | cons i t ih =>
    intro l
    exact (ih (l.erase i)).trans (List.erase_sublist i l)

/-- Membership survives fold-erase when the element is not among the erased. -/
lemma mem_foldl_erase : ∀ (L l : List ℕ) (x : ℕ), x ∈ l → x ∉ L →
    x ∈ L.foldl List.erase l := by
  intro L
  induction L with
  | nil =>
    intro l x hx _
    exact hx
  | cons i t ih =>
    intro l x hx hnx
    simp only [List.foldl_cons]
    refine ih (l.erase i) x ?_ ?_
    · refine (List.mem_erase_of_ne ?_).mpr hx
      intro hc
      exact hnx (hc ▸ List.mem_cons_self _ _)
    · intro hc
      exact hnx (List.mem_cons_of_mem _ hc)

/-- Over a duplicate-free list, fold-erase removes every erased element. -/
lemma not_mem_foldl_erase : ∀ (L l : List ℕ), l.Nodup → ∀ x ∈ L,
    x ∉ L.foldl List.erase l := by
  intro L
  induction L with
  | nil =>
    intro l _ x hx
    simp at hx
  | cons i t ih =>
    intro l hn x hx
    simp only [List.foldl_cons]
    rcases List.mem_cons.mp hx with rfl | hx2
    · intro hcon
      have h2 : x ∈ l.erase x := (foldl_erase_sublist t (l.erase x)).subset hcon
      rw [hn.mem_erase_iff] at h2
      exact h2.1 rfl
    · exact ih (l.erase i) (hn.erase i) x hx2

/-- Mass after erasing one listed member. -/
lemma loadOf_erase (st : List Request) (l : List ℕ) (i : ℕ) (h : i ∈ l) :
    loadOf st (l.erase i) = loadOf st l - (lookup st i).load := by
  have hp := List.perm_cons_erase h
  have hsum := (hp.map (fun j => (lookup st j).load)).sum_eq
  simp only [List.map_cons, List.sum_cons] at hsum
  rw [loadOf, loadOf]
  linarith

/-- Mass after erasing a duplicate-free set of members. -/
lemma loadOf_foldl_erase (st : List Request) :
    ∀ (L l : List ℕ), L.Nodup → (∀ i ∈ L, i ∈ l) →
      loadOf st (L.foldl List.erase l)
        = loadOf st l - (L.map (fun i => (lookup st i).load)).sum := by
  intro L
  induction L with
  | nil =>
    intro l _ _
    simp
  | cons i t ih =>
    intro l hn hsub
    simp only [List.foldl_cons, List.map_cons, List.sum_cons]
    obtain ⟨hni, hnt⟩ := List.nodup_cons.mp hn
    rw [ih (l.erase i) hnt ?_, loadOf_erase st l i (hsub i (List.mem_cons_self _ _))]
    · ring
    · intro j hj
      refine (List.mem_erase_of_ne ?_).mpr (hsub j (List.mem_cons_of_mem _ hj))
      intro hc
      exact hni (hc ▸ hj)

/-- Every lookup has non-negative load when all store loads are non-negative
(the default record has load 0). -/
lemma lookup_load_nonneg (st : List Request) (h : ∀ r ∈ st, 0 ≤ r.load)
    (i : ℕ) : 0 ≤ (lookup st i).load := by
  rw [lookup]
  cases hfind : st.find? (fun r => r.rid == i) with
  | none =>
    simp only [Option.getD_none]
    exact le_refl _
  | some r =>
    simp only [Option.getD_some]
    exact h r (List.mem_of_find?_eq_some hfind)

/-- Total mass is non-negative under non-negative loads. -/
lemma loadOf_nonneg (st : List Request) (h : ∀ i, 0 ≤ (lookup st i).load)
    (l : List ℕ) : 0 ≤ loadOf st l := by
  apply List.sum_nonneg
  intro x hx
  obtain ⟨i, _, rfl⟩ := List.mem_map.mp hx
  exact h i

/-- Filtering can only lower the mass under non-negative loads. -/
lemma loadOf_filter_le (st : List Request) (h : ∀ i, 0 ≤ (lookup st i).load)
    (p : ℕ → Bool) (l : List ℕ) :
    loadOf st (l.filter p) ≤ loadOf st l := by
  induction l with
  | nil => simp [loadOf]
  | cons i t ih =>
    rw [List.filter_cons]
    by_cases hp : p i
    · simp only [if_pos hp, loadOf, List.map_cons, List.sum_cons]
      have := ih
      rw [loadOf] at this
      rw [loadOf] at this
      linarith
    · simp only [if_neg hp]
      refine le_trans ih ?_
      simp only [loadOf, List.map_cons, List.sum_cons]
      have := h i
      linarith

/-- The admitted boarders are a sublist of the candidates. -/
lemma filter_admissible_sublist (st : List Request) :
    ∀ (rem : ℚ) (l : List ℕ), (filter_admissible st rem l).Sublist l := by
  intro rem l
  induction l generalizing rem with
  | nil => simp [filter_admissible]
  | cons i t ih =>
    rw [filter_admissible]
    split
    · exact (ih _).cons₂ i
    · exact (ih rem).cons i

/-- The admitted mass exceeds the remaining capacity by at most the 1e-9
admission slack once per admitted boarder. -/
lemma filter_admissible_sum (st : List Request) (hnn : ∀ i, 0 ≤ (lookup st i).load) :
    ∀ (rem : ℚ) (l : List ℕ),
      ((filter_admissible st rem l).map (fun i => (lookup st i).load)).sum
        ≤ max rem 0 + (filter_admissible st rem l).length * eps := by
  intro rem l
  induction l generalizing rem with
  | nil =>
    simp [filter_admissible]
  | cons i t ih =>
    rw [filter_admissible]
    split
    · next hadm =>
      simp only [List.map_cons, List.sum_cons, List.length_cons]
      have h2 := ih (rem - (lookup st i).load)
      have h3 : (lookup st i).load + max (rem - (lookup st i).load) 0 ≤ max rem 0 + eps := by
        rcases le_total 0 (rem - (lookup st i).load) with hs | hs
        · rw [max_eq_left hs]
          have : rem ≤ max rem 0 := le_max_left _ _
          have heps : (0 : ℚ) < eps := by norm_num [eps]
          linarith
        · rw [max_eq_right hs]
          have : rem ≤ max rem 0 := le_max_left _ _
          linarith
      push_cast
      linarith
    · next hadm =>
      exact ih rem

/-- Every admitted boarder's load is at most the entry remaining capacity
plus the admission slack (under non-negative loads the running remainder only
decreases). -/
lemma filter_admissible_loads (st : List Request) (hnn : ∀ i, 0 ≤ (lookup st i).load) :
    ∀ (rem : ℚ) (l : List ℕ), ∀ i ∈ filter_admissible st rem l,
      (lookup st i).load ≤ rem + eps := by
  intro rem l
  induction l generalizing rem with
  | nil =>
    intro i hi
    simp [filter_admissible] at hi
  | cons j t ih =>
    intro i hi
    rw [filter_admissible] at hi
    split at hi
    · next hadm =>
      rcases List.mem_cons.mp hi with rfl | hi2
      · exact hadm
      · have h2 := ih (rem - (lookup st j).load) i hi2
        have h3 := hnn j
        linarith
    · exact ih rem i hi

/-- Restoring the erased duplicate-free set is a permutation. -/
lemma foldl_erase_append_perm : ∀ (A w : List ℕ), A.Nodup → (∀ i ∈ A, i ∈ w) →
    ((A.foldl List.erase w) ++ A).Perm w := by
  intro A
  induction A with
  | nil =>
    intro w _ _
    simp
  | cons i t ih =>
    intro w hn hsub
    simp only [List.foldl_cons]
    obtain ⟨hni, hnt⟩ := List.nodup_cons.mp hn
    have hsub2 : ∀ j ∈ t, j ∈ w.erase i := by
      intro j hj
      refine (List.mem_erase_of_ne ?_).mpr (hsub j (List.mem_cons_of_mem _ hj))
      intro hc
      exact hni (hc ▸ hj)
    have hperm := ih (w.erase i) hnt hsub2
    refine List.perm_middle.trans ?_
    exact (hperm.cons i).trans
      (List.perm_cons_erase (hsub i (List.mem_cons_self _ _))).symm

/-- pull_ready_aux permutes the pending+waiting pool and only appends
arrived requests to waiting. -/
lemma pull_ready_aux_spec (store : List Request) (time : ℚ) :
    ∀ (pending waiting : List ℕ),
      ((pull_ready_aux store time pending waiting).1
        ++ (pull_ready_aux store time pending waiting).2).Perm (pending ++ waiting)
      ∧ (∀ i ∈ (pull_ready_aux store time pending waiting).2,
          i ∈ waiting ∨ (lookup store i).arrivalTime ≤ time) := by
  intro pending
  induction pending with
  | nil =>
    intro waiting
    rw [pull_ready_aux]
    exact ⟨List.Perm.refl _, fun i hi => Or.inl hi⟩
  | cons i rest ih =>
    intro waiting
    rw [pull_ready_aux]
    split
    · next harr =>
      obtain ⟨hp, hw⟩ := ih (waiting ++ [i])
      constructor
      · refine hp.trans ?_
        rw [← List.append_assoc]
        exact List.perm_append_singleton i (rest ++ waiting)
      · intro j hj
        rcases hw j hj with hj2 | hj2
        · rcases List.mem_append.mp hj2 with h3 | h3
          · exact Or.inl h3
          · rw [List.mem_singleton] at h3
            subst h3
            exact Or.inr harr
        · exact Or.inr hj2
    · exact ⟨List.Perm.refl _, fun i hi => Or.inl hi⟩

/-- pull_ready_requests changes only pending/waiting: a permutation of the
pool, with new waiting entries arrived. -/
lemma pull_ready_requests_spec (s : SimSt) :
    (pull_ready_requests s).store = s.store
    ∧ (pull_ready_requests s).onboard = s.onboard
    ∧ (pull_ready_requests s).serviceLog = s.serviceLog
    ∧ (pull_ready_requests s).time = s.time
    ∧ (pull_ready_requests s).floor = s.floor
    ∧ (pull_ready_requests s).stopLoads = s.stopLoads
    ∧ ((pull_ready_requests s).pending ++ (pull_ready_requests s).waiting).Perm
        (s.pending ++ s.waiting)
    ∧ (∀ i ∈ (pull_ready_requests s).waiting,
        i ∈ s.waiting ∨ (lookup s.store i).arrivalTime ≤ s.time) := by
  obtain ⟨hp, hw⟩ := pull_ready_aux_spec s.store s.time s.pending s.waiting
  exact ⟨rfl, rfl, rfl, rfl, rfl, rfl, hp, hw⟩

/-- pull_ready_requests preserves both invariants. -/
lemma pull_ready_requests_inv (cfg : SimCfg) {qids : List ℕ} {s : SimSt}
    (hc : ConsInv qids s) :
    ConsInv qids (pull_ready_requests s)
    ∧ (ExtraInv cfg qids s → ExtraInv cfg qids (pull_ready_requests s)) := by
  obtain ⟨hst, hob, hlog, htime, hfloor, hsl, hperm, hwait⟩ :=
    pull_ready_requests_spec s
  constructor
  · refine ⟨?_, hc.qn, ?_, ?_, ?_, ?_⟩
    · rw [hlog]
      exact (hperm.append_right s.serviceLog).trans hc.perm
    · rw [hst]
      exact hc.storeN
    · intro i hi
      rw [hst]
      exact hc.idsStore i hi
    · intro i hi
      rw [hob] at hi
      rw [hlog]
      exact hc.onboardLog i hi
    · rw [hob]
      exact hc.onboardN
  · intro he
    refine ⟨?_, ?_, he.capNN, ?_, ?_, ?_, ?_⟩
    · intro i hi
      rw [hst, htime]
      rcases hwait i hi with h2 | h2
      · exact he.waitArr i h2
      · exact h2
    · rw [hst]
      exact he.loadNN
    · rw [hst, hob, hlog]
      exact he.mass
    · rw [hsl]
      exact he.trace
    · intro i hi
      rw [hlog] at hi
      rw [hst, htime]
      exact he.ts1 i hi
    · intro i hi hni
      rw [hlog] at hi
      rw [hob] at hni
      rw [hst]
      exact he.ts2 i hi hni

/-- travel_between on distinct floors is the explicit accounting update
followed by pull_ready_requests. -/
lemma travel_between_eq (cfg : SimCfg) (s : SimSt) (e : ℤ) (hne : ¬s.floor = e) :
    travel_between cfg s e = pull_ready_requests
      { s with
        time := s.time + cfg.travelTimeF (loadOf s.store s.onboard) s.floor e
        totalTime := s.totalTime + cfg.travelTimeF (loadOf s.store s.onboard) s.floor e
        totalEnergy := s.totalEnergy
          + (cfg.segmentEnergyF (loadOf s.store s.onboard)
              (((e - s.floor).natAbs : ℚ) * cfg.floorHeight) (decide (s.floor < e))
            + cfg.standbyEnergyF
              (cfg.travelTimeF (loadOf s.store s.onboard) s.floor e))
        floor := e
        emptyloadEnergy := s.emptyloadEnergy
          + (if loadOf s.store s.onboard ≤ eps then
              cfg.segmentEnergyF (loadOf s.store s.onboard)
                (((e - s.floor).natAbs : ℚ) * cfg.floorHeight) (decide (s.floor < e))
              + cfg.standbyEnergyF
                (cfg.travelTimeF (loadOf s.store s.onboard) s.floor e)
            else 0) } := by
  rw [travel_between, if_neg hne]

/-- travel_between preserves both invariants and advances the clock under
non-negative travel times. -/
lemma travel_between_inv (cfg : SimCfg) {qids : List ℕ} {s : SimSt} (e : ℤ)
    (hc : ConsInv qids s) :
    ConsInv qids (travel_between cfg s e)
    ∧ ((∀ l a b, 0 ≤ cfg.travelTimeF l a b) → ExtraInv cfg qids s →
        ExtraInv cfg qids (travel_between cfg s e)
        ∧ s.time ≤ (travel_between cfg s e).time) := by
  by_cases hne : s.floor = e
  · rw [travel_between, if_pos hne]
    exact ⟨hc, fun _ he => ⟨he, le_refl _⟩⟩
  · rw [travel_between_eq cfg s e hne]
    have hc2 : ConsInv qids
        { s with
          time := s.time + cfg.travelTimeF (loadOf s.store s.onboard) s.floor e
          totalTime := s.totalTime + cfg.travelTimeF (loadOf s.store s.onboard) s.floor e
          totalEnergy := s.totalEnergy
            + (cfg.segmentEnergyF (loadOf s.store s.onboard)
                (((e - s.floor).natAbs : ℚ) * cfg.floorHeight) (decide (s.floor < e))
              + cfg.standbyEnergyF
                (cfg.travelTimeF (loadOf s.store s.onboard) s.floor e))
          floor := e
          emptyloadEnergy := s.emptyloadEnergy
            + (if loadOf s.store s.onboard ≤ eps then
                cfg.segmentEnergyF (loadOf s.store s.onboard)
                  (((e - s.floor).natAbs : ℚ) * cfg.floorHeight) (decide (s.floor < e))
                + cfg.standbyEnergyF
                  (cfg.travelTimeF (loadOf s.store s.onboard) s.floor e)
              else 0) } :=
      ⟨hc.perm, hc.qn, hc.storeN, hc.idsStore, hc.onboardLog, hc.onboardN⟩
    obtain ⟨hcons2, hextra2⟩ := pull_ready_requests_inv cfg hc2
    refine ⟨hcons2, fun htt he => ?_⟩
    have htt0 := htt (loadOf s.store s.onboard) s.floor e
    have he2 : ExtraInv cfg qids
        { s with
          time := s.time + cfg.travelTimeF (loadOf s.store s.onboard) s.floor e
          totalTime := s.totalTime + cfg.travelTimeF (loadOf s.store s.onboard) s.floor e
          totalEnergy := s.totalEnergy
            + (cfg.segmentEnergyF (loadOf s.store s.onboard)
                (((e - s.floor).natAbs : ℚ) * cfg.floorHeight) (decide (s.floor < e))
              + cfg.standbyEnergyF
                (cfg.travelTimeF (loadOf s.store s.onboard) s.floor e))
          floor := e
          emptyloadEnergy := s.emptyloadEnergy
            + (if loadOf s.store s.onboard ≤ eps then
                cfg.segmentEnergyF (loadOf s.store s.onboard)
                  (((e - s.floor).natAbs : ℚ) * cfg.floorHeight) (decide (s.floor < e))
                + cfg.standbyEnergyF
                  (cfg.travelTimeF (loadOf s.store s.onboard) s.floor e)
              else 0) } := by
      refine ⟨?_, he.loadNN, he.capNN, he.mass, he.trace, ?_, he.ts2⟩
      · intro i hi
        have h2 := he.waitArr i hi
        simp only []
        linarith
      · intro i hi
        obtain ⟨oa, pu, h1, h2, h3, h4, h5⟩ := he.ts1 i hi
        exact ⟨oa, pu, h1, h2, h3, h4, by simp only []; linarith⟩
    refine ⟨hextra2 he2, ?_⟩
    show s.time ≤ s.time + cfg.travelTimeF (loadOf s.store s.onboard) s.floor e
    linarith

/-- A field untouched by the update is unchanged on every lookup. -/
lemma lookup_updReq_field {β : Type} (g : Request → β) (st : List Request)
    (i : ℕ) (f : Request → Request) (hf : ∀ r, (f r).rid = r.rid)
    (hg : ∀ r, g (f r) = g r) (j : ℕ) :
    g (lookup (updReq st i f) j) = g (lookup st j) := by
  by_cases hj : j = i
  · subst hj
    by_cases hmem : j ∈ st.map Request.rid
    · rw [lookup_updReq_self st j f hf hmem, hg]
    · have hid : updReq st j f = st := by
        rw [updReq]
        have h2 : st.map (fun r => if r.rid == j then f r else r) = st.map id := by
          apply List.map_congr_left
          intro r hrmem
          have : r.rid ≠ j := by
            intro hcon
            exact hmem (List.mem_map.mpr ⟨r, hrmem, hcon⟩)
          simp [this]
        rw [h2, List.map_id]
      rw [hid]
  · rw [lookup_updReq_ne st i f hf j hj]

/-- Record-level shape of one alighting stamp. -/
lemma stamp_leaver_shape (a d : ℚ) (s : SimSt) (i : ℕ) :
    (stamp_leaver a d s i).pending = s.pending
    ∧ (stamp_leaver a d s i).waiting = s.waiting
    ∧ (stamp_leaver a d s i).serviceLog = s.serviceLog
    ∧ (stamp_leaver a d s i).time = s.time
    ∧ (stamp_leaver a d s i).floor = s.floor
    ∧ (stamp_leaver a d s i).stopLoads = s.stopLoads
    ∧ (stamp_leaver a d s i).onboard = s.onboard.erase i
    ∧ (stamp_leaver a d s i).store = updReq s.store i (leave_stamp a d) :=
  ⟨rfl, rfl, rfl, rfl, rfl, rfl, rfl, rfl⟩

/-- Effect of the alighting fold: only onboard and the leavers' dropoff
timestamps change. -/
lemma stamp_leavers_fold (a d : ℚ) :
    ∀ (L : List ℕ) (s : SimSt),
      ((L.foldl (stamp_leaver a d) s).pending = s.pending)
      ∧ ((L.foldl (stamp_leaver a d) s).waiting = s.waiting)
      ∧ ((L.foldl (stamp_leaver a d) s).serviceLog = s.serviceLog)
      ∧ ((L.foldl (stamp_leaver a d) s).time = s.time)
      ∧ ((L.foldl (stamp_leaver a d) s).floor = s.floor)
      ∧ ((L.foldl (stamp_leaver a d) s).stopLoads = s.stopLoads)
      ∧ ((L.foldl (stamp_leaver a d) s).onboard = L.foldl List.erase s.onboard)
      ∧ ((L.foldl (stamp_leaver a d) s).store.map Request.rid
          = s.store.map Request.rid)
      ∧ (∀ j, reqCore (lookup (L.foldl (stamp_leaver a d) s).store j)
          = reqCore (lookup s.store j))
      ∧ (∀ j, (lookup (L.foldl (stamp_leaver a d) s).store j).pickupTime
          = (lookup s.store j).pickupTime)
      ∧ (∀ j, (lookup (L.foldl (stamp_leaver a d) s).store j).originArrivalTime
          = (lookup s.store j).originArrivalTime)
      ∧ (∀ j, j ∉ L →
          lookup (L.foldl (stamp_leaver a d) s).store j = lookup s.store j)
      ∧ (∀ j ∈ L, j ∈ s.store.map Request.rid →
          (lookup (L.foldl (stamp_leaver a d) s).store j).destinationArrivalTime
              = some a
          ∧ (lookup (L.foldl (stamp_leaver a d) s).store j).dropoffTime = some d) := by
  intro L
  induction L with
  | nil =>
    intro s
    exact ⟨rfl, rfl, rfl, rfl, rfl, rfl, rfl, rfl, fun _ => rfl, fun _ => rfl,
      fun _ => rfl, fun _ _ => rfl, fun j hj => absurd hj (List.not_mem_nil j)⟩
  | cons i t ih =>
    intro s
    simp only [List.foldl_cons]
    obtain ⟨h1, h2, h3, h4, h5, h6, h7, h8, h9, h9b, h9c, h10, h11⟩ :=
      ih (stamp_leaver a d s i)
    obtain ⟨g1, g2, g3, g4, g5, g6, g7, g8⟩ := stamp_leaver_shape a d s i
    have hf : ∀ r : Request, (leave_stamp a d r).rid = r.rid := fun _ => rfl
    refine ⟨h1.trans g1, h2.trans g2, h3.trans g3, h4.trans g4, h5.trans g5,
      h6.trans g6, ?_, ?_, ?_, ?_, ?_, ?_, ?_⟩
    · rw [h7, g7]
    · rw [h8, g8]
      exact updReq_rids s.store i _ hf
    · intro j
      rw [h9 j, g8]
      exact lookup_updReq_field reqCore s.store i _ hf (fun _ => rfl) j
    · intro j
      rw [h9b j, g8]
      exact lookup_updReq_field Request.pickupTime s.store i _ hf (fun _ => rfl) j
    · intro j
      rw [h9c j, g8]
      exact lookup_updReq_field Request.originArrivalTime s.store i _ hf
        (fun _ => rfl) j
    · intro j hj
      rw [h10 j (fun hc => hj (List.mem_cons_of_mem _ hc)), g8]
      exact lookup_updReq_ne s.store i _ hf j
        (fun hc => hj (hc ▸ List.mem_cons_self _ _))
    · intro j hj hjm
      have hjm1 : j ∈ (stamp_leaver a d s i).store.map Request.rid := by
        rw [g8, updReq_rids s.store i _ hf]
        exact hjm
      rcases List.mem_cons.mp hj with rfl | hj2
      · by_cases hjt : j ∈ t
        · exact h11 j hjt hjm1
        · rw [h10 j hjt, g8, lookup_updReq_self s.store j _ hf hjm]
          exact ⟨rfl, rfl⟩
      · exact h11 j hj2 hjm1

/-- Record-level shape of one boarding stamp (for a boarder not yet in the
service log). -/
lemma stamp_boarder_shape (a d : ℚ) (fl : ℤ) (s : SimSt) (i : ℕ)
    (hlog : i ∉ s.serviceLog) :
    (stamp_boarder a d fl s i).pending = s.pending
    ∧ (stamp_boarder a d fl s i).time = s.time
    ∧ (stamp_boarder a d fl s i).floor = s.floor
    ∧ (stamp_boarder a d fl s i).stopLoads = s.stopLoads
    ∧ (stamp_boarder a d fl s i).waiting = s.waiting.erase i
    ∧ (stamp_boarder a d fl s i).serviceLog = s.serviceLog ++ [i]
    ∧ ((lookup s.store i).destination = fl →
        (stamp_boarder a d fl s i).onboard = s.onboard
        ∧ (stamp_boarder a d fl s i).store
            = updReq (updReq s.store i (board_stamp a d)) i (board_drop_stamp a d))
    ∧ ((lookup s.store i).destination ≠ fl →
        (stamp_boarder a d fl s i).onboard = s.onboard ++ [i]
        ∧ (stamp_boarder a d fl s i).store = updReq s.store i (board_stamp a d)) := by
  have hdest_eq : (lookup (updReq s.store i (board_stamp a d)) i).destination
      = (lookup s.store i).destination :=
    lookup_updReq_field Request.destination s.store i (board_stamp a d)
      (fun _ => rfl) (fun _ => rfl) i
  have hite : (if i ∈ s.serviceLog then s.serviceLog else s.serviceLog ++ [i])
      = s.serviceLog ++ [i] := if_neg hlog
  refine ⟨?_, ?_, ?_, ?_, ?_, ?_, ?_, ?_⟩
  · rw [stamp_boarder, hite]
    split <;> rfl
  · rw [stamp_boarder, hite]
    split <;> rfl
  · rw [stamp_boarder, hite]
    split <;> rfl
  · rw [stamp_boarder, hite]
    split <;> rfl
  · rw [stamp_boarder, hite]
    split <;> rfl
  · rw [stamp_boarder, hite]
    split <;> rfl
  · intro hdest
    rw [stamp_boarder, hite]
    split
    · exact ⟨rfl, rfl⟩
    · next hd =>
      rw [hdest_eq] at hd
      exact absurd hdest hd
  · intro hdest
    rw [stamp_boarder, hite]
    split
    · next hd =>
      rw [hdest_eq] at hd
      exact absurd hd hdest
    · exact ⟨rfl, rfl⟩

/-- Effect of the boarding fold over a duplicate-free batch of new boarders:
waiting loses them, the service log gains them in order, onboard gains those
whose destination lies ahead, and their pickup timestamps are written. -/
lemma stamp_boarders_fold (a d : ℚ) (fl : ℤ) :
    ∀ (A : List ℕ) (s : SimSt), A.Nodup → (∀ i ∈ A, i ∉ s.serviceLog) →
      ((A.foldl (stamp_boarder a d fl) s).pending = s.pending)
      ∧ ((A.foldl (stamp_boarder a d fl) s).time = s.time)
      ∧ ((A.foldl (stamp_boarder a d fl) s).floor = s.floor)
      ∧ ((A.foldl (stamp_boarder a d fl) s).stopLoads = s.stopLoads)
      ∧ ((A.foldl (stamp_boarder a d fl) s).waiting = A.foldl List.erase s.waiting)
      ∧ ((A.foldl (stamp_boarder a d fl) s).serviceLog = s.serviceLog ++ A)
      ∧ ((A.foldl (stamp_boarder a d fl) s).onboard
          = s.onboard ++ A.filter
              (fun i => decide ((lookup s.store i).destination ≠ fl)))
      ∧ ((A.foldl (stamp_boarder a d fl) s).store.map Request.rid
          = s.store.map Request.rid)
      ∧ (∀ j, reqCore (lookup (A.foldl (stamp_boarder a d fl) s).store j)
          = reqCore (lookup s.store j))
      ∧ (∀ j, j ∉ A →
          lookup (A.foldl (stamp_boarder a d fl) s).store j = lookup s.store j)
      ∧ (∀ j ∈ A, j ∈ s.store.map Request.rid →
          (lookup (A.foldl (stamp_boarder a d fl) s).store j).originArrivalTime
              = some a
          ∧ (lookup (A.foldl (stamp_boarder a d fl) s).store j).pickupTime = some d
          ∧ ((lookup s.store j).destination = fl →
              (lookup (A.foldl (stamp_boarder a d fl) s).store j).destinationArrivalTime
                  = some a
              ∧ (lookup (A.foldl (stamp_boarder a d fl) s).store j).dropoffTime
                  = some d)) := by
  intro A
  induction A with
  | nil =>
    intro s _ _
    exact ⟨rfl, rfl, rfl, rfl, rfl, by simp, by simp, rfl, fun _ => rfl,
      fun _ _ => rfl, fun j hj => absurd hj (List.not_mem_nil j)⟩
  | cons i t ih =>
    intro s hn hdisj
    simp only [List.foldl_cons]
    obtain ⟨hni, hnt⟩ := List.nodup_cons.mp hn
    have hlog0 : i ∉ s.serviceLog := hdisj i (List.mem_cons_self _ _)
    obtain ⟨g1, g2, g3, g4, g5, g6, g7, g8⟩ := stamp_boarder_shape a d fl s i hlog0
    have hdisj1 : ∀ j ∈ t, j ∉ (stamp_boarder a d fl s i).serviceLog := by
      intro j hj
      rw [g6]
      intro hcon
      rcases List.mem_append.mp hcon with h2 | h2
      · exact hdisj j (List.mem_cons_of_mem _ hj) h2
      · rw [List.mem_singleton] at h2
        exact hni (h2 ▸ hj)
    obtain ⟨h1, h2, h3, h4, h5, h6, h7, h8, h9, h10, h11⟩ :=
      ih (stamp_boarder a d fl s i) hnt hdisj1
    have hfb : ∀ r : Request, (board_stamp a d r).rid = r.rid := fun _ => rfl
    have hfd : ∀ r : Request, (board_drop_stamp a d r).rid = r.rid := fun _ => rfl
    -- the store of the single stamp, in both destination cases
    have hstore1 : ∀ j, reqCore (lookup (stamp_boarder a d fl s i).store j)
        = reqCore (lookup s.store j) := by
      intro j
      by_cases hdest : (lookup s.store i).destination = fl
      · rw [(g7 hdest).2]
        rw [lookup_updReq_field reqCore _ i _ hfd (fun _ => rfl) j]
        exact lookup_updReq_field reqCore _ i _ hfb (fun _ => rfl) j
      · rw [(g8 hdest).2]
        exact lookup_updReq_field reqCore _ i _ hfb (fun _ => rfl) j
    have hrids1 : (stamp_boarder a d fl s i).store.map Request.rid
        = s.store.map Request.rid := by
      by_cases hdest : (lookup s.store i).destination = fl
      · rw [(g7 hdest).2, updReq_rids _ i _ hfd, updReq_rids _ i _ hfb]
      · rw [(g8 hdest).2, updReq_rids _ i _ hfb]
    have hlook1 : ∀ j, j ≠ i →
        lookup (stamp_boarder a d fl s i).store j = lookup s.store j := by
      intro j hj
      by_cases hdest : (lookup s.store i).destination = fl
      · rw [(g7 hdest).2, lookup_updReq_ne _ i _ hfd j hj,
          lookup_updReq_ne _ i _ hfb j hj]
      · rw [(g8 hdest).2, lookup_updReq_ne _ i _ hfb j hj]
    refine ⟨h1.trans g1, h2.trans g2, h3.trans g3, h4.trans g4, ?_, ?_, ?_, ?_,
      ?_, ?_, ?_⟩
    · rw [h5, g5]
    · rw [h6, g6, List.append_assoc]
      rfl
    · rw [h7]
      have hfilter : t.filter
            (fun j => decide ((lookup (stamp_boarder a d fl s i).store j).destination ≠ fl))
          = t.filter (fun j => decide ((lookup s.store j).destination ≠ fl)) := by
        apply List.filter_congr
        intro j _
        rw [show (lookup (stamp_boarder a d fl s i).store j).destination
            = (lookup s.store j).destination from reqCore_eq_destination (hstore1 j)]
      rw [hfilter]
      by_cases hdest : (lookup s.store i).destination = fl
      · rw [(g7 hdest).1, List.filter_cons]
        simp only [hdest]
        simp
      · rw [(g8 hdest).1, List.filter_cons]
        simp only [ne_eq, hdest, not_false_eq_true, decide_True]
        rw [List.append_assoc]
        rfl
    · rw [h8, hrids1]
    · intro j
      rw [h9 j, hstore1 j]
    · intro j hj
      rw [h10 j (fun hc => hj (List.mem_cons_of_mem _ hc))]
      exact hlook1 j (fun hc => hj (hc ▸ List.mem_cons_self _ _))
    · intro j hj hjm
      have hjm1 : j ∈ (stamp_boarder a d fl s i).store.map Request.rid := by
        rw [hrids1]
        exact hjm
      have hdest_pres : (lookup (stamp_boarder a d fl s i).store j).destination
          = (lookup s.store j).destination := reqCore_eq_destination (hstore1 j)
      rcases List.mem_cons.mp hj with rfl | hj2
      · by_cases hjt : j ∈ t
        · exact absurd hjt hni
        · rw [h10 j hjt]
          by_cases hdest : (lookup s.store j).destination = fl
          · obtain ⟨hob, hst⟩ := g7 hdest
            rw [hst]
            have hjm2 : j ∈ (updReq s.store j (board_stamp a d)).map Request.rid := by
              rw [updReq_rids _ j _ hfb]
              exact hjm
            rw [lookup_updReq_self _ j _ hfd hjm2,
              lookup_updReq_self _ j _ hfb hjm]
            exact ⟨rfl, rfl, fun _ => ⟨rfl, rfl⟩⟩
          · obtain ⟨hob, hst⟩ := g8 hdest
            rw [hst, lookup_updReq_self _ j _ hfb hjm]
            exact ⟨rfl, rfl, fun hc => absurd hc hdest⟩
      · have hres := h11 j hj2 (by rw [hrids1]; exact hjm)
        obtain ⟨k1, k2, k3⟩ := hres
        refine ⟨k1, k2, fun hc => k3 ?_⟩
        rw [hdest_pres]
        exact hc

/-- Mass of a concatenation. -/
lemma loadOf_append (st : List Request) (l1 l2 : List ℕ) :
    loadOf st (l1 ++ l2) = loadOf st l1 + loadOf st l2 := by
  simp [loadOf]

/-- Facts packaged by the conservation invariant: the three pools are
individually duplicate-free, mutually disjoint, inside qids, and the log is
no longer than qids. -/
lemma ConsInv.parts {qids : List ℕ} {s : SimSt} (hc : ConsInv qids s) :
    s.waiting.Nodup ∧ (∀ i ∈ s.waiting, i ∉ s.serviceLog)
    ∧ s.serviceLog.Nodup ∧ (∀ i ∈ s.waiting, i ∈ qids)
    ∧ (∀ i ∈ s.serviceLog, i ∈ qids)
    ∧ s.serviceLog.length ≤ qids.length := by
  have hnall : ((s.pending ++ s.waiting) ++ s.serviceLog).Nodup :=
    hc.perm.nodup_iff.mpr hc.qn
  rw [List.nodup_append] at hnall
  obtain ⟨hpw, hlogn, hdisj⟩ := hnall
  rw [List.nodup_append] at hpw
  refine ⟨hpw.2.1, ?_, hlogn, ?_, ?_, ?_⟩
  · intro i hi
    exact hdisj (List.mem_append_right _ hi)
  · intro i hi
    exact hc.perm.mem_iff.mp (List.mem_append_left _ (List.mem_append_right _ hi))
  · intro i hi
    exact hc.perm.mem_iff.mp (List.mem_append_right _ hi)
  · have hlen := hc.perm.length_eq
    rw [List.length_append, List.length_append] at hlen
    omega

/-- process_stop preserves the conservation invariant, and (under
non-negative dwell times) the timing/capacity invariant, never turning the
clock back.  The boarders must come from waiting without duplicates and the
leavers from onboard without duplicates, as at every call site. -/
lemma process_stop_inv (cfg : SimCfg) {qids : List ℕ} {s : SimSt}
    (B L : List ℕ)
    (hB : ∀ i ∈ B, i ∈ s.waiting) (hBn : B.Nodup)
    (hL : ∀ i ∈ L, i ∈ s.onboard) (hLn : L.Nodup)
    (hc : ConsInv qids s) :
    ConsInv qids (process_stop cfg s B L)
    ∧ ((∀ b a, 0 ≤ cfg.holdTimeF b a) → ExtraInv cfg qids s →
        ExtraInv cfg qids (process_stop cfg s B L)
        ∧ s.time ≤ (process_stop cfg s B L).time) := by
  by_cases hBL : B = [] ∧ L = []
  · rw [process_stop, if_pos hBL]
    exact ⟨hc, fun _ he => ⟨he, le_refl _⟩⟩
  obtain ⟨hwN, hwLog, hlogN, hwQ, hlogQ, hlogLen⟩ := hc.parts
  set lw := ((L.filter fun i => decide (i ∈ s.onboard)).map
      (fun i => (lookup s.store i).load)).sum with hlw
  set pl := max 0 (loadOf s.store s.onboard - lw) with hpl
  set rem := max 0 (cfg.capacity - pl) with hrem
  set A := filter_admissible s.store rem B with hA
  set bw := (A.map fun i => (lookup s.store i).load).sum with hbw
  set dwell := (if A ≠ [] ∨ L ≠ [] then cfg.holdTimeF bw lw else 0) with hdwell
  set s2 : SimSt := { s with time := s.time + dwell
                             totalTime := s.totalTime + dwell
                             totalEnergy := s.totalEnergy + cfg.standbyEnergyF dwell }
    with hs2
  set s3 := L.foldl (stamp_leaver s.time (s.time + dwell)) s2 with hs3
  set s4 := A.foldl (stamp_boarder s.time (s.time + dwell) s3.floor) s3 with hs4
  set s5 := pull_ready_requests s4 with hs5
  have heq : process_stop cfg s B L
      = { s5 with stopLoads := s5.stopLoads ++ [loadOf s5.store s5.onboard] } := by
    rw [process_stop, if_neg hBL]
  rw [heq]
  obtain ⟨l1, l2, l3, l4, l5, l6, l7, l8, l9, l9b, l9c, l10, l11⟩ :=
    stamp_leavers_fold s.time (s.time + dwell) L s2
  have hAsub : ∀ i ∈ A, i ∈ s.waiting := fun i hi =>
    hB i ((filter_admissible_sublist s.store rem B).subset hi)
  have hAn : A.Nodup := (filter_admissible_sublist s.store rem B).nodup hBn
  have hAlog0 : ∀ i ∈ A, i ∉ s.serviceLog := fun i hi => hwLog i (hAsub i hi)
  have hAlog : ∀ i ∈ A, i ∉ s3.serviceLog := by
    intro i hi
    rw [l3]
    exact hAlog0 i hi
  obtain ⟨b1, b2, b3, b4, b5, b6, b7, b8, b9, b10, b11⟩ :=
    stamp_boarders_fold s.time (s.time + dwell) s3.floor A s3 hAn hAlog
  have hp4 : s4.pending = s.pending := (b1.trans l1).trans rfl
  have htime4 : s4.time = s.time + dwell := (b2.trans l4).trans rfl
  have hstop4 : s4.stopLoads = s.stopLoads := (b4.trans l6).trans rfl
  have hw4 : s4.waiting = A.foldl List.erase s.waiting := by
    rw [b5, l2]
  have hlog4 : s4.serviceLog = s.serviceLog ++ A := by
    rw [b6, l3]
  have hob3 : s3.onboard = L.foldl List.erase s.onboard := by
    rw [l7]
  have hob4 : s4.onboard = (L.foldl List.erase s.onboard)
      ++ A.filter (fun i => decide ((lookup s3.store i).destination ≠ s3.floor)) := by
    rw [b7, hob3]
  have hcore : ∀ j, reqCore (lookup s4.store j) = reqCore (lookup s.store j) :=
    fun j => (b9 j).trans (l9 j)
  have hrids4 : s4.store.map Request.rid = s.store.map Request.rid := b8.trans l8
  obtain ⟨p1, p2, p3, p4t, p5f, p6, pperm, pwait⟩ := pull_ready_requests_spec s4
  -- the final conservation permutation
  have hWA : ((A.foldl List.erase s.waiting) ++ A).Perm s.waiting :=
    foldl_erase_append_perm A s.waiting hAn hAsub
  have hpermF : ((s5.pending ++ s5.waiting) ++ s4.serviceLog).Perm qids := by
    refine (pperm.append_right s4.serviceLog).trans ?_
    rw [hp4, hw4, hlog4]
    refine (List.Perm.append_left _ List.perm_append_comm).trans ?_
    rw [← List.append_assoc, List.append_assoc s.pending]
    exact ((List.Perm.append_left s.pending hWA).append_right s.serviceLog).trans
      hc.perm
  have hlen4 : s4.serviceLog.length ≤ qids.length := by
    have h2 := hpermF.length_eq
    rw [List.length_append] at h2
    omega
  -- membership of the onboard list after the stop
  have hob4mem : ∀ x ∈ s4.onboard, x ∈ s4.serviceLog := by
    intro x hx
    rw [hob4] at hx
    rw [hlog4]
    rcases List.mem_append.mp hx with h2 | h2
    · exact List.mem_append_left _
        (hc.onboardLog x ((foldl_erase_sublist L s.onboard).subset h2))
    · exact List.mem_append_right _ (List.mem_of_mem_filter h2)
  have hob4nodup : s4.onboard.Nodup := by
    rw [hob4]
    refine List.Nodup.append ((foldl_erase_sublist L s.onboard).nodup hc.onboardN)
      ((List.filter_sublist A).nodup hAn) ?_
    intro x hx1 hx2
    have hxw : x ∈ s.waiting := hAsub x (List.mem_of_mem_filter hx2)
    have hxlog : x ∈ s.serviceLog :=
      hc.onboardLog x ((foldl_erase_sublist L s.onboard).subset hx1)
    exact hwLog x hxw hxlog
  have hconsF : ConsInv qids
      { s5 with stopLoads := s5.stopLoads ++ [loadOf s5.store s5.onboard] } := by
    refine ⟨?_, hc.qn, ?_, ?_, ?_, ?_⟩
    · show ((s5.pending ++ s5.waiting) ++ s5.serviceLog).Perm qids
      rw [p3]
      exact hpermF
    · show (s5.store.map Request.rid).Nodup
      rw [p1, hrids4]
      exact hc.storeN
    · intro i hi
      show i ∈ s5.store.map Request.rid
      rw [p1, hrids4]
      exact hc.idsStore i hi
    · intro i hi
      show i ∈ s5.serviceLog
      replace hi : i ∈ s5.onboard := hi
      rw [p2] at hi
      rw [p3]
      exact hob4mem i hi
    · show s5.onboard.Nodup
      rw [p2]
      exact hob4nodup
  refine ⟨hconsF, ?_⟩
  intro hhold he
  have hdw : 0 ≤ dwell := by
    rw [hdwell]
    split
    · exact hhold bw lw
    · exact le_refl 0
  have htime5 : s5.time = s.time + dwell := p4t.trans htime4
  have hload4 : ∀ i, 0 ≤ (lookup s4.store i).load := by
    intro i
    rw [reqCore_eq_load (hcore i)]
    exact he.loadNN i
  have harr4 : ∀ i, (lookup s4.store i).arrivalTime = (lookup s.store i).arrivalTime :=
    fun i => reqCore_eq_arrival (hcore i)
  -- the filter in hob4 is over the destination as stored before the stop
  have hdest3 : ∀ j, (lookup s3.store j).destination = (lookup s.store j).destination :=
    fun j => reqCore_eq_destination (l9 j)
  -- mass accounting
  have hlwval : (L.map (fun i => (lookup s.store i).load)).sum = lw := by
    rw [hlw]
    congr 1
    rw [List.filter_eq_self.mpr]
    intro x hx
    simpa using hL x hx
  have hlwnn : 0 ≤ lw := by
    rw [← hlwval]
    apply List.sum_nonneg
    intro x hx
    obtain ⟨i, _, rfl⟩ := List.mem_map.mp hx
    exact he.loadNN i
  have hm3 : loadOf s.store (L.foldl List.erase s.onboard)
      = loadOf s.store s.onboard - lw := by
    rw [loadOf_foldl_erase s.store L s.onboard hLn hL, hlwval]
  have hm3nn : 0 ≤ loadOf s.store (L.foldl List.erase s.onboard) :=
    loadOf_nonneg s.store he.loadNN _
  have hplval : pl = loadOf s.store s.onboard - lw := by
    rw [hpl]
    exact max_eq_right (by linarith)
  have hremnn : 0 ≤ rem := le_max_left 0 _
  have hAsum : loadOf s.store A ≤ rem + A.length * eps := by
    have h2 := filter_admissible_sum s.store he.loadNN rem B
    rw [← hA] at h2
    rw [max_eq_left hremnn] at h2
    exact h2
  have hAfle : loadOf s.store
      (A.filter (fun i => decide ((lookup s3.store i).destination ≠ s3.floor)))
      ≤ loadOf s.store A := loadOf_filter_le s.store he.loadNN _ A
  have hmass4 : loadOf s4.store s4.onboard
      ≤ cfg.capacity + s4.serviceLog.length * eps := by
    rw [loadOf_congr hcore s4.onboard, hob4, loadOf_append, hlog4,
      List.length_append]
    have hepsnn : (0 : ℚ) ≤ eps := by norm_num [eps]
    have hlogc : (0 : ℚ) ≤ (s.serviceLog.length : ℚ) := by positivity
    push_cast
    rcases le_or_lt pl cfg.capacity with hplc | hplc
    · have hremval : rem = cfg.capacity - pl := by
        rw [hrem]
        exact max_eq_right (by linarith)
      have hAc : (0 : ℚ) ≤ (A.length : ℚ) := by positivity
      nlinarith [hAsum, hAfle, hm3, hplval]
    · have hremval : rem = 0 := by
        rw [hrem]
        exact max_eq_left (by linarith)
      have hmass0 := he.mass
      nlinarith [hAsum, hAfle, hm3, hplval]
  have hlog4len : (s.serviceLog.length + A.length : ℚ) ≤ (qids.length : ℚ) := by
    have h2 : s4.serviceLog.length = s.serviceLog.length + A.length := by
      rw [hlog4, List.length_append]
    exact_mod_cast h2 ▸ hlen4
  refine ⟨⟨?_, ?_, he.capNN, ?_, ?_, ?_, ?_⟩, ?_⟩
  · -- waitArr
    intro i hi
    replace hi : i ∈ s5.waiting := hi
    show (lookup s5.store i).arrivalTime ≤ s5.time
    rw [p1, htime5, harr4 i]
    rcases pwait i hi with h2 | h2
    · rw [hw4] at h2
      have h3 := he.waitArr i ((foldl_erase_sublist A s.waiting).subset h2)
      linarith
    · rw [harr4 i, htime4] at h2
      exact h2
  · -- loadNN
    intro i
    show 0 ≤ (lookup s5.store i).load
    rw [p1]
    exact hload4 i
  · -- mass
    show loadOf s5.store s5.onboard ≤ cfg.capacity + s5.serviceLog.length * eps
    rw [p1, p2, p3]
    exact hmass4
  · -- trace
    intro m hm
    replace hm : m ∈ s5.stopLoads ++ [loadOf s5.store s5.onboard] := hm
    rcases List.mem_append.mp hm with h2 | h2
    · rw [p6, hstop4] at h2
      exact he.trace m h2
    · rw [List.mem_singleton] at h2
      subst h2
      rw [p1, p2]
      refine le_trans hmass4 ?_
      have hepsnn : (0 : ℚ) ≤ eps := by norm_num [eps]
      have h3 : (s4.serviceLog.length : ℚ) ≤ (qids.length : ℚ) := by
        exact_mod_cast hlen4
      nlinarith
  · -- ts1
    intro i hi
    replace hi : i ∈ s5.serviceLog := hi
    rw [p3, hlog4] at hi
    show ∃ oa pu, (lookup s5.store i).originArrivalTime = some oa
      ∧ (lookup s5.store i).pickupTime = some pu
      ∧ (lookup s5.store i).arrivalTime ≤ oa ∧ oa ≤ pu ∧ pu ≤ s5.time
    rw [p1, htime5]
    rcases List.mem_append.mp hi with h2 | h2
    · -- an old log member: timestamps unchanged through both folds
      have hiA : i ∉ A := fun hcon => hAlog0 i hcon h2
      have hb : lookup s4.store i = lookup s3.store i := b10 i hiA
      obtain ⟨oa, pu, k1, k2, k3, k4, k5⟩ := he.ts1 i h2
      refine ⟨oa, pu, ?_, ?_, ?_, k4, by linarith⟩
      · rw [hb, l9c i]
        exact k1
      · rw [hb, l9b i]
        exact k2
      · rw [harr4 i]
        exact k3
    · -- a new boarder
      have hirids : i ∈ s3.store.map Request.rid := by
        rw [l8]
        exact hc.idsStore i (hwQ i (hAsub i h2))
      obtain ⟨k1, k2, _⟩ := b11 i h2 hirids
      refine ⟨s.time, s.time + dwell, k1, k2, ?_, by linarith, le_refl _⟩
      rw [harr4 i]
      exact he.waitArr i (hAsub i h2)
  · -- ts2
    intro i hi hni
    replace hi : i ∈ s5.serviceLog := hi
    replace hni : i ∉ s5.onboard := hni
    rw [p3, hlog4] at hi
    rw [p2] at hni
    show ∃ pu da dd, (lookup s5.store i).pickupTime = some pu
      ∧ (lookup s5.store i).destinationArrivalTime = some da
      ∧ (lookup s5.store i).dropoffTime = some dd
      ∧ pu ≤ dd ∧ da ≤ dd
    rw [p1]
    rcases List.mem_append.mp hi with h2 | h2
    · -- old log member
      have hiA : i ∉ A := fun hcon => hAlog0 i hcon h2
      have hb : lookup s4.store i = lookup s3.store i := b10 i hiA
      by_cases hon : i ∈ s.onboard
      · -- must have left during this stop
        have hiL : i ∈ L := by
          by_contra hiL
          apply hni
          rw [hob4]
          exact List.mem_append_left _ (mem_foldl_erase L s.onboard i hon hiL)
        have hirids : i ∈ s.store.map Request.rid := hc.idsStore i (hlogQ i h2)
        obtain ⟨k1, k2⟩ := l11 i hiL hirids
        obtain ⟨oa, pu, m1, m2, m3, m4, m5⟩ := he.ts1 i h2
        refine ⟨pu, s.time, s.time + dwell, ?_, ?_, ?_, by linarith, by linarith⟩
        · rw [hb, l9b i]
          exact m2
        · rw [hb]
          exact k1
        · rw [hb]
          exact k2
      · -- was not onboard: untouched by the leaver fold as well
        have hiL : i ∉ L := fun hcon => hon (hL i hcon)
        have hluk : lookup s4.store i = lookup s.store i := by
          rw [hb, l10 i hiL]
        obtain ⟨pu, da, dd, m1, m2, m3, m4, m5⟩ := he.ts2 i h2 hon
        exact ⟨pu, da, dd, by rw [hluk]; exact m1, by rw [hluk]; exact m2,
          by rw [hluk]; exact m3, m4, m5⟩
    · -- a boarder: not onboard afterwards means it was an immediate dropoff
      have hirids3 : i ∈ s3.store.map Request.rid := by
        rw [l8]
        exact hc.idsStore i (hwQ i (hAsub i h2))
      obtain ⟨k1, k2, k3⟩ := b11 i h2 hirids3
      have hdest : (lookup s3.store i).destination = s3.floor := by
        by_contra hd
        apply hni
        rw [hob4]
        refine List.mem_append_right _ ?_
        refine List.mem_filter.mpr ⟨h2, ?_⟩
        simpa using hd
      obtain ⟨k4, k5⟩ := k3 hdest
      exact ⟨s.time + dwell, s.time, s.time + dwell, k2, k4, k5, le_refl _,
        by linarith⟩
  · -- the clock never goes back
    show s.time ≤ s5.time
    rw [htime5]
    linarith

/-- The boarders selected at a stop form a sublist of the waiting list. -/
lemma boarders_here_sublist (s : SimSt) (d : Dir) :
    (boarders_here s d).Sublist s.waiting :=
  (List.filter_sublist _).trans (List.filter_sublist _)

/-- The leavers selected at a stop form a sublist of the onboard list. -/
lemma leavers_at_sublist (s : SimSt) : (leavers_at s).Sublist s.onboard :=
  List.filter_sublist _

/-- The state after the all-idle fast-forward step, with the branching
compressed into a max and a single record update. -/
lemma fast_forward_eq (cfg : SimCfg) (s1 : SimSt) (next : ℕ) (rest : List ℕ)
    (hp : s1.pending = next :: rest) :
    fast_forward cfg s1 = pull_ready_requests
      { (if s1.time < (lookup s1.store next).arrivalTime then
          { s1 with
            totalEnergy := s1.totalEnergy
              + cfg.standbyEnergyF ((lookup s1.store next).arrivalTime - s1.time)
            time := (lookup s1.store next).arrivalTime }
        else s1) with
        pending := rest
        waiting := (if s1.time < (lookup s1.store next).arrivalTime then
          { s1 with
            totalEnergy := s1.totalEnergy
              + cfg.standbyEnergyF ((lookup s1.store next).arrivalTime - s1.time)
            time := (lookup s1.store next).arrivalTime }
        else s1).waiting ++ [next] } := by
  rw [fast_forward.eq_def, hp]

/-- fast_forward preserves both invariants and never turns the clock back. -/
lemma fast_forward_inv (cfg : SimCfg) {qids : List ℕ} {s1 : SimSt}
    (hc : ConsInv qids s1) :
    ConsInv qids (fast_forward cfg s1)
    ∧ (ExtraInv cfg qids s1 →
        ExtraInv cfg qids (fast_forward cfg s1)
        ∧ s1.time ≤ (fast_forward cfg s1).time) := by
  rcases hp : s1.pending with _ | ⟨next, rest⟩
  · rw [fast_forward.eq_def, hp]
    exact ⟨hc, fun he => ⟨he, le_refl _⟩⟩
  rw [fast_forward_eq cfg s1 next rest hp]
  set sa := (if s1.time < (lookup s1.store next).arrivalTime then
      { s1 with
        totalEnergy := s1.totalEnergy
          + cfg.standbyEnergyF ((lookup s1.store next).arrivalTime - s1.time)
        time := (lookup s1.store next).arrivalTime }
    else s1) with hsa
  have hstw : sa.store = s1.store ∧ sa.waiting = s1.waiting
      ∧ sa.onboard = s1.onboard ∧ sa.serviceLog = s1.serviceLog
      ∧ sa.stopLoads = s1.stopLoads := by
    rw [hsa]
    split <;> exact ⟨rfl, rfl, rfl, rfl, rfl⟩
  obtain ⟨hsst, hsw, hsob, hslog, hssl⟩ := hstw
  have hst1 : s1.time ≤ sa.time := by
    rw [hsa]
    split
    · next h => exact le_of_lt h
    · exact le_refl _
  have harr : (lookup s1.store next).arrivalTime ≤ sa.time := by
    rw [hsa]
    split
    · next h => exact le_refl _
    · next h => exact not_lt.mp h
  set t : SimSt := { sa with pending := rest, waiting := sa.waiting ++ [next] }
    with ht
  have hct : ConsInv qids t := by
    refine ⟨?_, hc.qn, ?_, ?_, ?_, ?_⟩
    · show ((rest ++ (sa.waiting ++ [next])) ++ sa.serviceLog).Perm qids
      rw [hsw, hslog]
      refine List.Perm.trans ?_ hc.perm
      refine List.Perm.append_right s1.serviceLog ?_
      rw [hp, ← List.append_assoc]
      exact List.perm_append_singleton next (rest ++ s1.waiting)
    · show (sa.store.map Request.rid).Nodup
      rw [hsst]
      exact hc.storeN
    · intro i hi
      show i ∈ sa.store.map Request.rid
      rw [hsst]
      exact hc.idsStore i hi
    · intro i hi
      replace hi : i ∈ sa.onboard := hi
      rw [hsob] at hi
      show i ∈ sa.serviceLog
      rw [hslog]
      exact hc.onboardLog i hi
    · show sa.onboard.Nodup
      rw [hsob]
      exact hc.onboardN
  obtain ⟨hcF, heF⟩ := pull_ready_requests_inv cfg hct
  refine ⟨hcF, fun he => ?_⟩
  have het : ExtraInv cfg qids t := by
    refine ⟨?_, ?_, he.capNN, ?_, ?_, ?_, ?_⟩
    · intro i hi
      replace hi : i ∈ sa.waiting ++ [next] := hi
      show (lookup sa.store i).arrivalTime ≤ sa.time
      rw [hsst]
      rcases List.mem_append.mp hi with h2 | h2
      · rw [hsw] at h2
        exact le_trans (he.waitArr i h2) hst1
      · rw [List.mem_singleton] at h2
        subst h2
        exact harr
    · intro i
      show 0 ≤ (lookup sa.store i).load
      rw [hsst]
      exact he.loadNN i
    · show loadOf sa.store sa.onboard ≤ cfg.capacity + sa.serviceLog.length * eps
      rw [hsst, hsob, hslog]
      exact he.mass
    · intro m hm
      replace hm : m ∈ sa.stopLoads := hm
      rw [hssl] at hm
      exact he.trace m hm
    · intro i hi
      replace hi : i ∈ sa.serviceLog := hi
      rw [hslog] at hi
      show ∃ oa pu, (lookup sa.store i).originArrivalTime = some oa
        ∧ (lookup sa.store i).pickupTime = some pu
        ∧ (lookup sa.store i).arrivalTime ≤ oa ∧ oa ≤ pu ∧ pu ≤ sa.time
      rw [hsst]
      obtain ⟨oa, pu, k1, k2, k3, k4, k5⟩ := he.ts1 i hi
      exact ⟨oa, pu, k1, k2, k3, k4, le_trans k5 hst1⟩
    · intro i hi hni
      replace hi : i ∈ sa.serviceLog := hi
      replace hni : i ∉ sa.onboard := hni
      rw [hslog] at hi
      rw [hsob] at hni
      show ∃ pu da dd, (lookup sa.store i).pickupTime = some pu
        ∧ (lookup sa.store i).destinationArrivalTime = some da
        ∧ (lookup sa.store i).dropoffTime = some dd
        ∧ pu ≤ dd ∧ da ≤ dd
      rw [hsst]
      exact he.ts2 i hi hni
  refine ⟨heF het, ?_⟩
  have htt : (pull_ready_requests t).time = t.time :=
    (pull_ready_requests_spec t).2.2.2.1
  rw [htt]
  exact hst1

/-- The serve loop at positive fuel on a non-empty cab. -/
lemma serve_loop_succ (cfg : SimCfg) (fuel : ℕ) (direction : Dir) (s0 : SimSt)
    (hob : ¬s0.onboard = []) :
    serve_loop cfg (fuel + 1) direction s0 =
      match serve_next_floor (pull_ready_requests s0) direction with
      | none => (true, pull_ready_requests s0)
      | some next_floor =>
        serve_loop cfg fuel direction
          (process_stop cfg (travel_between cfg (pull_ready_requests s0) next_floor)
            (boarders_here (travel_between cfg (pull_ready_requests s0) next_floor)
              direction)
            (leavers_at (travel_between cfg (pull_ready_requests s0) next_floor))) := by
  rw [serve_loop, if_neg hob]

/-- The serve loop preserves both invariants and never turns the clock
back, whatever its fuel. -/
lemma serve_loop_inv (cfg : SimCfg) {qids : List ℕ} :
    ∀ (fuel : ℕ) (direction : Dir) (s0 : SimSt), ConsInv qids s0 →
    ConsInv qids (serve_loop cfg fuel direction s0).2
    ∧ ((∀ l a b, 0 ≤ cfg.travelTimeF l a b) → (∀ b a, 0 ≤ cfg.holdTimeF b a) →
        ExtraInv cfg qids s0 →
        ExtraInv cfg qids (serve_loop cfg fuel direction s0).2
        ∧ s0.time ≤ (serve_loop cfg fuel direction s0).2.time) := by
  intro fuel
  induction fuel with
  | zero =>
    intro direction s0 hc
    exact ⟨hc, fun _ _ he => ⟨he, le_refl _⟩⟩
  | succ fuel ih =>
    intro direction s0 hc
    by_cases hob : s0.onboard = []
    · rw [serve_loop, if_pos hob]
      exact ⟨hc, fun _ _ he => ⟨he, le_refl _⟩⟩
    rw [serve_loop_succ cfg fuel direction s0 hob]
    obtain ⟨hc1, he1⟩ := pull_ready_requests_inv cfg hc
    have htimeeq : (pull_ready_requests s0).time = s0.time :=
      (pull_ready_requests_spec s0).2.2.2.1
    rcases hnf : serve_next_floor (pull_ready_requests s0) direction with _ | nf
    · refine ⟨hc1, fun _ _ he => ⟨he1 he, ?_⟩⟩
      rw [htimeeq]
    · set s := pull_ready_requests s0 with hs
      set s2 := travel_between cfg s nf with hs2
      obtain ⟨hc2, he2⟩ := travel_between_inv cfg nf hc1
      obtain ⟨hwN2, _, _, _, _, _⟩ := hc2.parts
      obtain ⟨hc3, he3⟩ := process_stop_inv cfg
        (boarders_here s2 direction) (leavers_at s2)
        (fun i hi => (boarders_here_sublist s2 direction).subset hi)
        ((boarders_here_sublist s2 direction).nodup hwN2)
        (fun i hi => (leavers_at_sublist s2).subset hi)
        ((leavers_at_sublist s2).nodup hc2.onboardN)
        hc2
      obtain ⟨hcR, heR⟩ := ih direction _ hc3
      refine ⟨hcR, fun htt hh he => ?_⟩
      obtain ⟨heA, htA⟩ := he2 htt (he1 he)
      obtain ⟨heB, htB⟩ := he3 hh heA
      obtain ⟨heC, htC⟩ := heR htt hh heB
      refine ⟨heC, ?_⟩
      calc s0.time = s.time := htimeeq.symm
        _ ≤ s2.time := htA
        _ ≤ _ := le_trans htB htC

/-- The pickup commitment preserves both invariants and never turns the
clock back. -/
lemma commit_step_inv (cfg : SimCfg) {qids : List ℕ} (fuel : ℕ) (s3 : SimSt)
    (rh : ℕ) (rt : List ℕ) (hc : ConsInv qids s3) :
    ConsInv qids (commit_step cfg fuel s3 rh rt).2
    ∧ ((∀ l a b, 0 ≤ cfg.travelTimeF l a b) → (∀ b a, 0 ≤ cfg.holdTimeF b a) →
        ExtraInv cfg qids s3 →
        ExtraInv cfg qids (commit_step cfg fuel s3 rh rt).2
        ∧ s3.time ≤ (commit_step cfg fuel s3 rh rt).2.time) := by
  rw [commit_step]
  set direction := request_direction (lookup s3.store (pick_primary s3 rh rt)) s3.floor
    with hdir
  obtain ⟨hwN3, _, _, _, _, _⟩ := hc.parts
  obtain ⟨hc4, he4⟩ := process_stop_inv cfg (boarders_here s3 direction) []
    (fun i hi => (boarders_here_sublist s3 direction).subset hi)
    ((boarders_here_sublist s3 direction).nodup hwN3)
    (fun i hi => absurd hi (List.not_mem_nil i)) List.nodup_nil hc
  set s4 := process_stop cfg s3 (boarders_here s3 direction) [] with hs4
  split
  · exact ⟨hc4, fun _ hh he => he4 hh he⟩
  · obtain ⟨hcR, heR⟩ := serve_loop_inv cfg fuel direction s4 hc4
    refine ⟨hcR, fun htt hh he => ?_⟩
    obtain ⟨heA, htA⟩ := he4 hh he
    obtain ⟨heB, htB⟩ := heR htt hh heA
    exact ⟨heB, le_trans htA htB⟩

/-- The empty-cab step preserves both invariants and never turns the clock
back. -/
lemma empty_cab_step_inv (cfg : SimCfg) {qids : List ℕ} (fuel : ℕ) (s2 : SimSt)
    (w : ℕ) (ws : List ℕ) (hc : ConsInv qids s2) :
    ConsInv qids (empty_cab_step cfg fuel s2 w ws).2
    ∧ ((∀ l a b, 0 ≤ cfg.travelTimeF l a b) → (∀ b a, 0 ≤ cfg.holdTimeF b a) →
        ExtraInv cfg qids s2 →
        ExtraInv cfg qids (empty_cab_step cfg fuel s2 w ws).2
        ∧ s2.time ≤ (empty_cab_step cfg fuel s2 w ws).2.time) := by
  rw [empty_cab_step]
  set s3 := travel_between cfg s2 (lookup s2.store (pick_target s2 w ws)).origin
    with hs3
  obtain ⟨hc3, he3⟩ := travel_between_inv cfg _ hc
  rw [← hs3] at hc3 he3
  cases hr : ready_here s3 with
  | nil =>
    exact ⟨hc3, fun htt _ he => (he3 htt he)⟩
  | cons rh rt =>
    show ConsInv qids (commit_step cfg fuel s3 rh rt).2 ∧ _
    obtain ⟨hcR, heR⟩ := commit_step_inv cfg fuel s3 rh rt hc3
    refine ⟨hcR, fun htt hh he => ?_⟩
    obtain ⟨heA, htA⟩ := he3 htt he
    obtain ⟨heB, htB⟩ := heR htt hh heA
    exact ⟨heB, le_trans htA htB⟩

/-- One iteration of the outer loop preserves both invariants and never
turns the clock back. -/
lemma loop_body_inv (cfg : SimCfg) {qids : List ℕ} (fuel : ℕ) (s0 : SimSt)
    (hc : ConsInv qids s0) :
    ConsInv qids (loop_body cfg fuel s0).2
    ∧ ((∀ l a b, 0 ≤ cfg.travelTimeF l a b) → (∀ b a, 0 ≤ cfg.holdTimeF b a) →
        ExtraInv cfg qids s0 →
        ExtraInv cfg qids (loop_body cfg fuel s0).2
        ∧ s0.time ≤ (loop_body cfg fuel s0).2.time) := by
  rw [loop_body]
  set s1 := pull_ready_requests s0 with hs1
  set s2 := (if s1.waiting = [] ∧ s1.onboard = [] then fast_forward cfg s1 else s1)
    with hs2
  have hbase : ConsInv qids s2
      ∧ (ExtraInv cfg qids s0 → ExtraInv cfg qids s2 ∧ s0.time ≤ s2.time) := by
    obtain ⟨hca, hea⟩ := pull_ready_requests_inv cfg hc
    have ht1 : s1.time = s0.time := (pull_ready_requests_spec s0).2.2.2.1
    rw [hs2]
    split
    · obtain ⟨hcb, heb⟩ := fast_forward_inv cfg hca
      refine ⟨hcb, fun he => ?_⟩
      obtain ⟨hex, ht⟩ := heb (hea he)
      exact ⟨hex, by rw [← ht1]; exact ht⟩
    · exact ⟨hca, fun he => ⟨hea he, le_of_eq ht1.symm⟩⟩
  obtain ⟨hc2, he2⟩ := hbase
  split
  · exact ⟨hc2, fun _ _ he => he2 he⟩
  split
  · -- empty cab
    cases hw : s2.waiting with
    | nil =>
      exact ⟨hc2, fun _ _ he => he2 he⟩
    | cons w ws =>
      show ConsInv qids (empty_cab_step cfg fuel s2 w ws).2 ∧ _
      obtain ⟨hcR, heR⟩ := empty_cab_step_inv cfg fuel s2 w ws hc2
      refine ⟨hcR, fun htt hh he => ?_⟩
      obtain ⟨heA, htA⟩ := he2 he
      obtain ⟨heB, htB⟩ := heR htt hh heA
      exact ⟨heB, le_trans htA htB⟩
  · -- cab occupied
    cases hd : (serve_dirs s2).head? with
    | none =>
      obtain ⟨hc5, he5⟩ := process_stop_inv cfg [] s2.onboard
        (fun i hi => absurd hi (List.not_mem_nil i)) List.nodup_nil
        (fun i hi => hi) hc2.onboardN hc2
      show ConsInv qids (process_stop cfg s2 [] s2.onboard) ∧ _
      refine ⟨hc5, fun _ hh he => ?_⟩
      obtain ⟨heA, htA⟩ := he2 he
      obtain ⟨heB, htB⟩ := he5 hh heA
      exact ⟨heB, le_trans htA htB⟩
    | some direction =>
      show ConsInv qids (serve_loop cfg fuel direction s2).2 ∧ _
      obtain ⟨hcR, heR⟩ := serve_loop_inv cfg fuel direction s2 hc2
      refine ⟨hcR, fun htt hh he => ?_⟩
      obtain ⟨heA, htA⟩ := he2 he
      obtain ⟨heB, htB⟩ := heR htt hh heA
      exact ⟨heB, le_trans htA htB⟩

/-- The outer loop preserves both invariants. -/
lemma main_loop_inv (cfg : SimCfg) {qids : List ℕ} :
    ∀ (fuel : ℕ) (s : SimSt), ConsInv qids s →
    ConsInv qids (main_loop cfg fuel s).2
    ∧ ((∀ l a b, 0 ≤ cfg.travelTimeF l a b) → (∀ b a, 0 ≤ cfg.holdTimeF b a) →
        ExtraInv cfg qids s →
        ExtraInv cfg qids (main_loop cfg fuel s).2) := by
  intro fuel
  induction fuel with
  | zero =>
    intro s hc
    exact ⟨hc, fun _ _ he => he⟩
  | succ fuel ih =>
    intro s hc
    rw [main_loop]
    split
    · exact ⟨hc, fun _ _ he => he⟩
    obtain ⟨hcb, heb⟩ := loop_body_inv cfg fuel s hc
    cases hlb : loop_body cfg fuel s with
    | mk done s2 =>
      rw [hlb] at hcb heb
      cases done with
      | true =>
        obtain ⟨hcR, heR⟩ := ih s2 hcb
        exact ⟨hcR, fun htt hh he => heR htt hh (heb htt hh he).1⟩
      | false =>
        exact ⟨hcb, fun htt hh he => (heb htt hh he).1⟩

/-- When the outer loop reports completion, all three request pools are
empty. -/
lemma main_loop_complete (cfg : SimCfg) :
    ∀ (fuel : ℕ) (s : SimSt), (main_loop cfg fuel s).1 = true →
    (main_loop cfg fuel s).2.pending = []
    ∧ (main_loop cfg fuel s).2.waiting = []
    ∧ (main_loop cfg fuel s).2.onboard = [] := by
  intro fuel
  induction fuel with
  | zero =>
    intro s hdone
    exact absurd hdone (by simp [main_loop])
  | succ fuel ih =>
    intro s hdone
    rw [main_loop]
    rw [main_loop] at hdone
    split
    · next h => exact h
    · next h =>
      rw [if_neg h] at hdone
      cases hlb : loop_body cfg fuel s with
      | mk done s2 =>
        rw [hlb] at hdone
        cases done with
        | true => exact ih s2 hdone
        | false => exact absurd hdone (by simp)

/-- Queue concatenation over a cons of elevators. -/
lemma all_queues_cons (e : Elevator) (es : List Elevator) :
    all_queues (e :: es) = e.queue ++ all_queues es := by
  simp [all_queues]

/-- The greedy choice really picks an indexed elevator of the list. -/
lemma greedy_choice_mem_enum (r : Request) (gs : List (Elevator × ℤ))
    (hne : gs ≠ []) : greedy_choice r gs ∈ gs.enum := by
  obtain ⟨g, t, rfl⟩ := List.exists_cons_of_ne_nil hne
  have hgc : greedy_choice r (g :: t)
      = pick_first_min (fun q => greedy_key r q.2) (0, g) (List.enumFrom 1 t) := by
    simp [greedy_choice, List.enum_cons]
  rw [List.enum_cons, hgc]
  exact pick_first_min_mem _ _ _

/-- On a non-empty list, greedy_step is the set at the chosen index. -/
lemma greedy_step_eq_set (gs : List (Elevator × ℤ)) (r : Request) (hne : gs ≠ []) :
    greedy_step gs r
      = gs.set (greedy_choice r gs).1
          ({ (greedy_choice r gs).2.1 with
              queue := (greedy_choice r gs).2.1.queue ++ [r] }, r.origin) := by
  rw [greedy_step]
  cases h : gs.enum with
  | nil => exact absurd (List.enum_eq_nil.mp h) hne
  | cons p ps => rfl

/-- Replacing one elevator's queue by that queue plus a request appends the
request to the concatenated queues, up to permutation. -/
lemma all_queues_set_perm (r : Request) :
    ∀ (gs : List (Elevator × ℤ)) (k : ℕ) (v : Elevator × ℤ) (hk : k < gs.length),
    v.1.queue = (gs.get ⟨k, hk⟩).1.queue ++ [r] →
    (all_queues ((gs.set k v).map Prod.fst)).Perm
      (all_queues (gs.map Prod.fst) ++ [r]) := by
  intro gs
  induction gs with
  | nil =>
    intro k v hk
    exact absurd hk (by simp)
  | cons g t ih =>
    intro k v hk hv
    cases k with
    | zero =>
      rw [List.set_cons_zero, List.map_cons, all_queues_cons, List.map_cons,
        all_queues_cons, hv, List.append_assoc, List.append_assoc]
      exact List.Perm.append_left _ List.perm_append_comm
    | succ k =>
      have hk2 : k < t.length := by
        simpa using hk
      rw [List.set_cons_succ, List.map_cons, all_queues_cons, List.map_cons,
        all_queues_cons, List.append_assoc]
      refine (List.Perm.append_left g.1.queue (ih k v hk2 hv)).trans ?_
      rw [← List.append_assoc]

/-- One greedy step appends the processed request to the concatenated
queues, up to permutation. -/
lemma greedy_step_queues (gs : List (Elevator × ℤ)) (r : Request) (hne : gs ≠ []) :
    (all_queues ((greedy_step gs r).map Prod.fst)).Perm
      (all_queues (gs.map Prod.fst) ++ [r]) := by
  have henum := greedy_choice_mem_enum r gs hne
  rcases hgc : greedy_choice r gs with ⟨k, c⟩
  rw [hgc] at henum
  obtain ⟨hk, hv⟩ := List.mem_enum henum
  rw [greedy_step_eq_set gs r hne, hgc]
  refine all_queues_set_perm r gs k ({ c.1 with queue := c.1.queue ++ [r] },
    r.origin) hk ?_
  show c.1.queue ++ [r] = (gs.get ⟨k, hk⟩).1.queue ++ [r]
  rw [List.get_eq_getElem, ← hv]

/-- The greedy fold assigns every processed request to some queue. -/
lemma greedy_fold_queues (rs : List Request) :
    ∀ gs : List (Elevator × ℤ), gs ≠ [] →
    (all_queues ((rs.foldl greedy_step gs).map Prod.fst)).Perm
      (all_queues (gs.map Prod.fst) ++ rs) := by
  induction rs with
  | nil =>
    intro gs _
    rw [List.foldl_nil, List.append_nil]
  | cons r rest ih =>
    intro gs hne
    rw [List.foldl_cons]
    have hne2 : greedy_step gs r ≠ [] := by
      intro hcon
      apply hne
      have hlen : (greedy_step gs r).length = gs.length := by
        rw [greedy_step_eq_set gs r hne, List.length_set]
      rw [hcon] at hlen
      exact List.eq_nil_of_length_eq_zero hlen.symm
    refine (ih (greedy_step gs r) hne2).trans ?_
    refine ((greedy_step_queues gs r hne).append_right rest).trans ?_
    rw [List.append_assoc]
    rfl

/-- assign_requests_greedy assigns every request to exactly one queue: the
concatenated queues are a permutation of the input list. -/
lemma assign_requests_greedy_conserves (requests : List Request)
    (elevators : List Elevator) (hne : elevators ≠ []) :
    (all_queues (assign_requests_greedy requests elevators)).Perm requests := by
  rw [assign_requests_greedy, if_neg hne]
  have hne2 : elevators.map
      (fun e => (({ e with queue := [], servedRequests := [] } : Elevator), e.floor))
      ≠ [] := by
    simpa using hne
  refine (greedy_fold_queues _ _ hne2).trans ?_
  have hcleared : all_queues ((elevators.map
      (fun e => (({ e with queue := [], servedRequests := [] } : Elevator),
        e.floor))).map Prod.fst) = [] := by
    rw [List.map_map]
    exact all_queues_cleared elevators
  rw [hcleared, List.nil_append]
  exact sort_by_perm _ _

/-- The timestamp reset does not touch the rid. -/
lemma reset_request_rid : Request.rid ∘ reset_request = Request.rid := rfl

/-- The store rids of the initial state are the input queue's rids, up to
the sorting permutation. -/
lemma init_state_qids (elev : Elevator) :
    ((init_state elev).store.map Request.rid).Perm (elev.queue.map Request.rid) := by
  show ((( sort_by (fun r => r.arrivalTime) elev.queue).map reset_request).map
    Request.rid).Perm _
  rw [List.map_map, reset_request_rid]
  exact (sort_by_perm _ _).map _

/-- The initial state satisfies the conservation invariant over its store
rids. -/
lemma init_state_cons (elev : Elevator)
    (hq : (elev.queue.map Request.rid).Nodup) :
    ConsInv ((init_state elev).store.map Request.rid) (init_state elev) := by
  have hperm := init_state_qids elev
  have hqn : ((init_state elev).store.map Request.rid).Nodup :=
    hperm.nodup_iff.mpr hq
  refine ⟨?_, hqn, hqn, fun i hi => hi, ?_, ?_⟩
  · show (((init_state elev).pending ++ []) ++ []).Perm _
    rw [List.append_nil, List.append_nil]
    exact List.Perm.refl _
  · intro i hi
    exact absurd hi (List.not_mem_nil i)
  · exact List.nodup_nil

/-- The initial state satisfies the timing/capacity invariant under
non-negative loads and capacity. -/
lemma init_state_extra (cfg : SimCfg) (elev : Elevator)
    (hload : ∀ r ∈ elev.queue, 0 ≤ r.load) (hcap : 0 ≤ cfg.capacity) :
    ExtraInv cfg ((init_state elev).store.map Request.rid) (init_state elev) := by
  have hstload : ∀ r ∈ (init_state elev).store, 0 ≤ r.load := by
    intro r hr
    obtain ⟨r0, hr0, rfl⟩ := List.mem_map.mp hr
    exact hload r0 ((sort_by_perm _ _).subset hr0)
  refine ⟨?_, lookup_load_nonneg _ hstload, hcap, ?_, ?_, ?_, ?_⟩
  · intro i hi
    exact absurd hi (List.not_mem_nil i)
  · show loadOf (init_state elev).store [] ≤ cfg.capacity + ([] : List ℕ).length * eps
    simp only [loadOf, List.map_nil, List.sum_nil, List.length_nil]
    push_cast
    linarith
  · intro m hm
    exact absurd hm (List.not_mem_nil m)
  · intro i hi
    exact absurd hi (List.not_mem_nil i)
  · intro i hi
    exact absurd hi (List.not_mem_nil i)

/-- A completed single-elevator run serves exactly the queue rids, and with
well-formed numerics every served record carries the four ordered
timestamps. -/
lemma run_elevator_final (cfg : SimCfg) (fuel : ℕ) (elev : Elevator)
    (hq : (elev.queue.map Request.rid).Nodup)
    (hdone : (run_elevator cfg fuel elev).1 = true) :
    ((((run_elevator cfg fuel elev).2.serviceLog.map
        (lookup (run_elevator cfg fuel elev).2.store)).map Request.rid).Perm
      (elev.queue.map Request.rid))
    ∧ ((∀ r ∈ elev.queue, 0 ≤ r.load) → 0 ≤ cfg.capacity →
        (∀ l a b, 0 ≤ cfg.travelTimeF l a b) → (∀ b a, 0 ≤ cfg.holdTimeF b a) →
        ∀ r ∈ (run_elevator cfg fuel elev).2.serviceLog.map
            (lookup (run_elevator cfg fuel elev).2.store),
          ∃ oa pu da dd,
            r.originArrivalTime = some oa ∧ r.pickupTime = some pu
            ∧ r.destinationArrivalTime = some da ∧ r.dropoffTime = some dd
            ∧ r.arrivalTime ≤ oa ∧ oa ≤ pu ∧ pu ≤ dd ∧ da ≤ dd) := by
  have hc0 := init_state_cons elev hq
  obtain ⟨hcF, heF⟩ := main_loop_inv cfg fuel (init_state elev) hc0
  obtain ⟨hpF, hwF, hoF⟩ := main_loop_complete cfg fuel (init_state elev) hdone
  have hlogperm : (main_loop cfg fuel (init_state elev)).2.serviceLog.Perm
      ((init_state elev).store.map Request.rid) := by
    have h2 := hcF.perm
    rw [hpF, hwF, List.append_nil, List.nil_append] at h2
    exact h2
  have hmap : ((main_loop cfg fuel (init_state elev)).2.serviceLog.map
      (lookup (main_loop cfg fuel (init_state elev)).2.store)).map Request.rid
      = (main_loop cfg fuel (init_state elev)).2.serviceLog := by
    rw [List.map_map]
    refine Eq.trans (List.map_congr_left ?_) (List.map_id _)
    intro i hi
    exact lookup_rid _ i (hcF.idsStore i (hlogperm.subset hi))
  constructor
  · show (((main_loop cfg fuel (init_state elev)).2.serviceLog.map
      (lookup (main_loop cfg fuel (init_state elev)).2.store)).map Request.rid).Perm _
    rw [hmap]
    exact hlogperm.trans (init_state_qids elev)
  · intro hload hcap htt hh r hr
    have heR := heF htt hh (init_state_extra cfg elev hload hcap)
    replace hr : r ∈ (main_loop cfg fuel (init_state elev)).2.serviceLog.map
      (lookup (main_loop cfg fuel (init_state elev)).2.store) := hr
    obtain ⟨i, hi, rfl⟩ := List.mem_map.mp hr
    obtain ⟨oa, pu, k1, k2, k3, k4, k5⟩ := heR.ts1 i hi
    obtain ⟨pu2, da, dd, m1, m2, m3, m4, m5⟩ := heR.ts2 i hi
      (by rw [hoF]; exact List.not_mem_nil i)
    have hpu : pu2 = pu := by
      rw [k2] at m1
      exact (Option.some_injective _ m1).symm
    exact ⟨oa, pu, da, dd, k1, k2, m2, m3, k3, k4, by rw [← hpu]; exact m4, m5⟩

/-- A completed simulate_dispatch serves exactly the concatenated queue
rids, and with well-formed numerics every served record carries the four
ordered timestamps. -/
lemma simulate_dispatch_run (cfg : SimCfg) (fuel : ℕ) :
    ∀ es : List Elevator,
    ((all_queues es).map Request.rid).Nodup →
    (simulate_dispatch cfg fuel es).completed = true →
    (((simulate_dispatch cfg fuel es).all_served.map Request.rid).Perm
      ((all_queues es).map Request.rid))
    ∧ ((∀ r ∈ all_queues es, 0 ≤ r.load) → 0 ≤ cfg.capacity →
        (∀ l a b, 0 ≤ cfg.travelTimeF l a b) → (∀ b a, 0 ≤ cfg.holdTimeF b a) →
        ∀ r ∈ (simulate_dispatch cfg fuel es).all_served,
          ∃ oa pu da dd, r.originArrivalTime = some oa ∧ r.pickupTime = some pu
            ∧ r.destinationArrivalTime = some da ∧ r.dropoffTime = some dd
            ∧ r.arrivalTime ≤ oa ∧ oa ≤ pu ∧ pu ≤ dd ∧ da ≤ dd) := by
  intro es
  induction es with
  | nil =>
    intro _ _
    constructor
    · show (([] : List Request).map Request.rid).Perm
        ((all_queues []).map Request.rid)
      simp [all_queues]
    · intro _ _ _ _ r hr
      exact absurd hr (List.not_mem_nil r)
  | cons elev rest ih =>
    intro hnd hdone
    rw [all_queues_cons, List.map_append, List.nodup_append] at hnd
    obtain ⟨hnd1, hnd2, hdisj⟩ := hnd
    rw [simulate_dispatch] at hdone
    cases hre : run_elevator cfg fuel elev with
    | mk ok s =>
      rw [hre] at hdone
      cases ok with
      | false => simp at hdone
      | true =>
        replace hdone : (simulate_dispatch cfg fuel rest).completed = true := hdone
        obtain ⟨ihp, ihts⟩ := ih hnd2 hdone
        obtain ⟨hperm1, hts1⟩ := run_elevator_final cfg fuel elev hnd1
          (by rw [hre])
        rw [hre] at hperm1 hts1
        have hserved : (simulate_dispatch cfg fuel (elev :: rest)).all_served
            = (s.serviceLog.map (lookup s.store))
              ++ (simulate_dispatch cfg fuel rest).all_served := by
          rw [simulate_dispatch, hre]
        constructor
        · rw [hserved, all_queues_cons, List.map_append, List.map_append]
          exact hperm1.append ihp
        · intro hload hcap htt hh r hr
          rw [hserved] at hr
          have hload1 : ∀ r ∈ elev.queue, 0 ≤ r.load := by
            intro r2 hr2
            refine hload r2 ?_
            rw [all_queues_cons]
            exact List.mem_append_left _ hr2
          have hload2 : ∀ r ∈ all_queues rest, 0 ≤ r.load := by
            intro r2 hr2
            refine hload r2 ?_
            rw [all_queues_cons]
            exact List.mem_append_right _ hr2
          rcases List.mem_append.mp hr with h2 | h2
          · exact hts1 hload1 hcap htt hh r h2
          · exact ihts hload2 hcap htt hh r h2

/-- Moving ready requests never removes anybody from the waiting list. -/
lemma pull_ready_aux_waiting_mono (store : List Request) (time : ℚ) :
    ∀ (p w : List ℕ) (i : ℕ), i ∈ w → i ∈ (pull_ready_aux store time p w).2 := by
  intro p
  induction p with
  | nil =>
    intro w i hi
    exact hi
  | cons j rest ih =>
    intro w i hi
    rw [pull_ready_aux]
    split
    · exact ih (w ++ [j]) i (List.mem_append_left _ hi)
    · exact hi

/-- The boarding fold erases exactly the boarders from the waiting list. -/
lemma foldl_stamp_boarder_waiting (a d : ℚ) (fl : ℤ) :
    ∀ (l : List ℕ) (t : SimSt),
    (l.foldl (stamp_boarder a d fl) t).waiting = l.foldl List.erase t.waiting := by
  intro l
  induction l with
  | nil =>
    intro t
    rfl
  | cons j r ih =>
    intro t
    rw [List.foldl_cons, List.foldl_cons, ih]
    have hw : (stamp_boarder a d fl t j).waiting = t.waiting.erase j := by
      rw [stamp_boarder]
      split <;> split <;> rfl
    rw [hw]

/-- The alighting fold does not touch the waiting list. -/
lemma foldl_stamp_leaver_waiting (a d : ℚ) :
    ∀ (l : List ℕ) (t : SimSt),
    (l.foldl (stamp_leaver a d) t).waiting = t.waiting := by
  intro l
  induction l with
  | nil =>
    intro t
    rfl
  | cons j r ih =>
    intro t
    rw [List.foldl_cons, ih]
    rfl

/-- A waiting candidate that is not admitted at a stop is still waiting
after the stop. -/
lemma process_stop_waiting (cfg : SimCfg) (s : SimSt) (B L : List ℕ) (i : ℕ)
    (hi : i ∈ s.waiting) (hni : i ∉ admitted_at cfg s B L) :
    i ∈ (process_stop cfg s B L).waiting := by
  by_cases hBL : B = [] ∧ L = []
  · rw [process_stop, if_pos hBL]
    exact hi
  set lw := ((L.filter fun j => decide (j ∈ s.onboard)).map
      (fun j => (lookup s.store j).load)).sum with hlw
  set pl := max 0 (loadOf s.store s.onboard - lw) with hpl
  set rem := max 0 (cfg.capacity - pl) with hrem
  set A := filter_admissible s.store rem B with hA
  set bw := (A.map fun j => (lookup s.store j).load).sum with hbw
  set dwell := (if A ≠ [] ∨ L ≠ [] then cfg.holdTimeF bw lw else 0) with hdwell
  set s2 : SimSt := { s with time := s.time + dwell
                             totalTime := s.totalTime + dwell
                             totalEnergy := s.totalEnergy + cfg.standbyEnergyF dwell }
    with hs2
  set s3 := L.foldl (stamp_leaver s.time (s.time + dwell)) s2 with hs3
  set s4 := A.foldl (stamp_boarder s.time (s.time + dwell) s3.floor) s3 with hs4
  set s5 := pull_ready_requests s4 with hs5
  have heq : process_stop cfg s B L
      = { s5 with stopLoads := s5.stopLoads ++ [loadOf s5.store s5.onboard] } := by
    rw [process_stop, if_neg hBL]
  rw [heq]
  show i ∈ s5.waiting
  have hiA : i ∉ A := by
    intro hcon
    apply hni
    show i ∈ admitted_at cfg s B L
    rw [hA] at hcon
    exact hcon
  have hw4 : s4.waiting = A.foldl List.erase s.waiting := by
    rw [hs4, foldl_stamp_boarder_waiting, hs3, foldl_stamp_leaver_waiting]
  have hi4 : i ∈ s4.waiting := by
    rw [hw4]
    exact mem_foldl_erase A s.waiting i hi hiA
  show i ∈ (pull_ready_requests s4).waiting
  exact pull_ready_aux_waiting_mono s4.store s4.time s4.pending s4.waiting i hi4

/-- The overweight input reaches a state the outer loop can never leave:
whatever the remaining fuel, the iteration returns unchanged pools and only
appends a zero to the stop-mass trace. -/
lemma loop_body_stuck (n : ℕ) (sl : List ℚ) :
    loop_body testCfg n (stuckSt sl) = (true, stuckSt (sl ++ [0])) := by
  have hps : process_stop testCfg (stuckSt sl) [1] [] = stuckSt (sl ++ [0]) := by
    simp [process_stop, stuckSt, testCfg, overweightReq, eps, filter_admissible,
      loadOf, lookup, pull_ready_requests, pull_ready_aux]
    norm_num
    exact ⟨rfl, rfl⟩
  have hpull : pull_ready_requests (stuckSt sl) = stuckSt sl := rfl
  have hw : (stuckSt sl).waiting = [1] := rfl
  have hob : (stuckSt sl).onboard = [] := rfl
  have hob2 : (stuckSt (sl ++ [0])).onboard = [] := rfl
  have hcond : ¬((stuckSt sl).waiting = [] ∧ (stuckSt sl).onboard = []) :=
    fun h => absurd (hw.symm.trans h.1) (List.cons_ne_nil 1 [])
  rw [loop_body, hpull]
  rw [if_neg hcond, if_neg hcond, if_pos hob]
  rw [hw]
  show empty_cab_step testCfg n (stuckSt sl) 1 [] = _
  rw [empty_cab_step]
  have hpt : pick_target (stuckSt sl) 1 [] = 1 := rfl
  have htr : travel_between testCfg (stuckSt sl)
      (lookup (stuckSt sl).store (pick_target (stuckSt sl) 1 [])).origin
      = stuckSt sl := by
    rw [hpt]
    rw [travel_between]
    have horig : (stuckSt sl).floor = (lookup (stuckSt sl).store 1).origin := rfl
    rw [if_pos horig]
  rw [htr]
  have hrh : ready_here (stuckSt sl) = [1] := rfl
  rw [hrh]
  show commit_step testCfg n (stuckSt sl) 1 [] = _
  rw [commit_step]
  have hdir : request_direction
      (lookup (stuckSt sl).store (pick_primary (stuckSt sl) 1 [])) (stuckSt sl).floor
      = Dir.up := rfl
  rw [hdir]
  have hbh : boarders_here (stuckSt sl) Dir.up = [1] := rfl
  rw [hbh, hps]
  rw [if_pos (Or.inr hob2)]

/-- The outer loop runs out of any fuel on the stuck state: the run never
reports completion and stays in a stuck state. -/
lemma main_loop_stuck :
    ∀ (fuel : ℕ) (sl : List ℚ),
    (main_loop testCfg fuel (stuckSt sl)).1 = false
    ∧ ∃ sl2, (main_loop testCfg fuel (stuckSt sl)).2 = stuckSt sl2 := by
  intro fuel
  induction fuel with
  | zero =>
    intro sl
    exact ⟨rfl, sl, rfl⟩
  | succ fuel ih =>
    intro sl
    rw [main_loop]
    have hw : (stuckSt sl).waiting = [1] := rfl
    have hcond : ¬((stuckSt sl).pending = [] ∧ (stuckSt sl).waiting = []
        ∧ (stuckSt sl).onboard = []) :=
      fun h => absurd (hw.symm.trans h.2.1) (List.cons_ne_nil 1 [])
    rw [if_neg hcond, loop_body_stuck fuel sl]
    exact ih (sl ++ [0])

/-- C1: for every input request list with positive loads within the
configured capacity, distinct requests, and a non-empty elevator list, after
either policy (assign_requests_greedy or assign_requests_mpc) partitions the
requests into queues and simulate_dispatch runs to completion, the
concatenated served_requests carry exactly the input request identities, each
exactly once (a permutation — nothing lost, nothing duplicated). -/
theorem simulate_dispatch_conserves_requests (cfg : SimCfg)
    (requests : List Request) (elevators : List Elevator) (fuel : ℕ)
    (w : ℚ) (m : ℤ) (hne : elevators ≠ [])
    (hrid : (requests.map Request.rid).Nodup)
    (hload : ∀ r ∈ requests, 0 < r.load ∧ r.load ≤ cfg.capacity) :
    ((simulate_dispatch cfg fuel
        (assign_requests_greedy requests elevators)).completed = true →
      ((simulate_dispatch cfg fuel
          (assign_requests_greedy requests elevators)).all_served.map
            Request.rid).Perm (requests.map Request.rid))
    ∧ ((simulate_dispatch cfg fuel
          (assign_requests_mpc cfg requests elevators w m)).completed = true →
      ((simulate_dispatch cfg fuel
          (assign_requests_mpc cfg requests elevators w m)).all_served.map
            Request.rid).Perm (requests.map Request.rid)) := by
  constructor
  · intro hdone
    have hqp : (all_queues (assign_requests_greedy requests elevators)).Perm
        requests := assign_requests_greedy_conserves requests elevators hne
    have hnd : ((all_queues (assign_requests_greedy requests
        elevators)).map Request.rid).Nodup :=
      ((hqp.map Request.rid).nodup_iff).mpr hrid
    exact ((simulate_dispatch_run cfg fuel _ hnd hdone).1).trans
      (hqp.map Request.rid)
  · intro hdone
    have hqp : (all_queues (assign_requests_mpc cfg requests elevators w m)).Perm
        requests := assign_requests_mpc_conserves cfg requests elevators w m hne
    have hnd : ((all_queues (assign_requests_mpc cfg requests elevators
        w m)).map Request.rid).Nodup :=
      ((hqp.map Request.rid).nodup_iff).mpr hrid
    exact ((simulate_dispatch_run cfg fuel _ hnd hdone).1).trans
      (hqp.map Request.rid)

/-- C3: every request served by a completed simulate_dispatch run (under
non-negative loads, capacity, travel and hold times) carries all four
timestamps, ordered arrival ≤ origin_arrival ≤ pickup ≤ dropoff with
destination_arrival ≤ dropoff. -/
theorem served_requests_timestamps (cfg : SimCfg) (es : List Elevator)
    (fuel : ℕ)
    (hnd : ((all_queues es).map Request.rid).Nodup)
    (hload : ∀ r ∈ all_queues es, 0 ≤ r.load)
    (hcap : 0 ≤ cfg.capacity)
    (htt : ∀ l a b, 0 ≤ cfg.travelTimeF l a b)
    (hh : ∀ b a, 0 ≤ cfg.holdTimeF b a)
    (hdone : (simulate_dispatch cfg fuel es).completed = true) :
    ∀ r ∈ (simulate_dispatch cfg fuel es).all_served,
      ∃ oa pu da dd, r.originArrivalTime = some oa ∧ r.pickupTime = some pu
        ∧ r.destinationArrivalTime = some da ∧ r.dropoffTime = some dd
        ∧ r.arrivalTime ≤ oa ∧ oa ≤ pu ∧ pu ≤ dd ∧ da ≤ dd :=
  (simulate_dispatch_run cfg fuel es hnd hdone).2 hload hcap htt hh

/-- C2 (amended): at every recorded stop of a run the onboard mass is at
most the capacity plus one 1e-9 admission slack per input request (not the
bare capacity of the literal claim); admission is greedy in encounter order
against the running remaining capacity with a 1e-9 slack per comparison; and
a waiting candidate that is not admitted at a stop is still waiting after
the stop. -/
theorem process_stop_capacity_with_slack (cfg : SimCfg) (fuel : ℕ)
    (elev : Elevator)
    (hq : (elev.queue.map Request.rid).Nodup)
    (hload : ∀ r ∈ elev.queue, 0 ≤ r.load) (hcap : 0 ≤ cfg.capacity)
    (htt : ∀ l a b, 0 ≤ cfg.travelTimeF l a b)
    (hh : ∀ b a, 0 ≤ cfg.holdTimeF b a) :
    (∀ m ∈ (run_elevator cfg fuel elev).2.stopLoads,
        m ≤ cfg.capacity + elev.queue.length * eps)
    ∧ (∀ (store : List Request) (remaining : ℚ) (j : ℕ) (rest : List ℕ),
        ((lookup store j).load ≤ remaining + eps →
          filter_admissible store remaining (j :: rest)
            = j :: filter_admissible store
                (remaining - (lookup store j).load) rest)
        ∧ (¬(lookup store j).load ≤ remaining + eps →
          filter_admissible store remaining (j :: rest)
            = filter_admissible store remaining rest))
    ∧ (∀ (s : SimSt) (B L : List ℕ) (j : ℕ), j ∈ s.waiting →
        j ∉ admitted_at cfg s B L → j ∈ (process_stop cfg s B L).waiting) := by
  refine ⟨?_, ?_, fun s B L j => process_stop_waiting cfg s B L j⟩
  · have hc0 := init_state_cons elev hq
    obtain ⟨hcF, heF⟩ := main_loop_inv cfg fuel (init_state elev) hc0
    have heR := heF htt hh (init_state_extra cfg elev hload hcap)
    intro m hm
    have h2 := heR.trace m hm
    have hlen : ((init_state elev).store.map Request.rid).length
        = elev.queue.length :=
      (init_state_qids elev).length_eq.trans (List.length_map _ _)
    rw [hlen] at h2
    exact h2
  · intro store remaining j rest
    constructor
    · intro hle
      rw [filter_admissible, if_pos hle]
    · intro hgt
      rw [filter_admissible, if_neg hgt]

/-- C4: the spec promises a ValidationError raised before any simulation
step when a request's load alone exceeds the configured capacity; the code
performs no such validation.  On a load-200 request against capacity 100 the
dispatch loop can never finish: for every fuel bound the run reports
incomplete, the clock stands at zero, nothing is ever served, and the whole
dispatch reports incomplete. -/
theorem overweight_request_no_validation :
    testCfg.capacity < overweightReq.load
    ∧ ∀ fuel : ℕ,
        (run_elevator testCfg fuel overweightElev).1 = false
        ∧ (run_elevator testCfg fuel overweightElev).2.time = 0
        ∧ (run_elevator testCfg fuel overweightElev).2.serviceLog = []
        ∧ (simulate_dispatch testCfg fuel [overweightElev]).completed = false := by
  have hrun : ∀ fuel : ℕ,
      (run_elevator testCfg fuel overweightElev).1 = false
      ∧ (run_elevator testCfg fuel overweightElev).2.time = 0
      ∧ (run_elevator testCfg fuel overweightElev).2.serviceLog = [] := by
    intro fuel
    cases fuel with
    | zero => exact ⟨rfl, rfl, rfl⟩
    | succ fuel =>
      have hp : (init_state overweightElev).pending = [1] := rfl
      have hcond : ¬((init_state overweightElev).pending = []
          ∧ (init_state overweightElev).waiting = []
          ∧ (init_state overweightElev).onboard = []) :=
        fun h => absurd (hp.symm.trans h.1) (List.cons_ne_nil 1 [])
      have hlb : loop_body testCfg fuel (init_state overweightElev)
          = (true, stuckSt [0]) := by
        have hpull : pull_ready_requests (init_state overweightElev)
            = stuckSt [] := rfl
        have hpull2 : pull_ready_requests (stuckSt []) = stuckSt [] := rfl
        have hstep := loop_body_stuck fuel []
        rw [loop_body, hpull2] at hstep
        rw [loop_body, hpull]
        exact hstep
      have hre : run_elevator testCfg (fuel + 1) overweightElev
          = main_loop testCfg fuel (stuckSt [0]) := by
        show main_loop testCfg (fuel + 1) (init_state overweightElev) = _
        rw [main_loop, if_neg hcond, hlb]
      rw [hre]
      obtain ⟨h1, sl2, h2⟩ := main_loop_stuck fuel [0]
      refine ⟨h1, ?_, ?_⟩
      · rw [h2]
        rfl
      · rw [h2]
        rfl
  refine ⟨by norm_num [testCfg, overweightReq], fun fuel => ?_⟩
  obtain ⟨h1, h2, h3⟩ := hrun fuel
  refine ⟨h1, h2, h3, ?_⟩
  rw [simulate_dispatch]
  cases hre : run_elevator testCfg fuel overweightElev with
  | mk ok s =>
    rw [hre] at h1
    cases ok with
    | false => rfl
    | true => exact absurd h1 (by simp)

section ConcreteEvaluations

attribute [local semireducible] Rat.add Rat.mul Rat.sub Rat.inv

set_option maxHeartbeats 2000000 in
/-- Witness for C1 at a concrete input: the greedy policy on one request and
one elevator, where the run completes and serves exactly that request. -/
theorem simulate_dispatch_conserves_requests_witness :
    (simulate_dispatch testCfg 10
        (assign_requests_greedy [testReq] [testElev])).completed = true
    ∧ ((simulate_dispatch testCfg 10
        (assign_requests_greedy [testReq] [testElev])).completed = true →
      ((simulate_dispatch testCfg 10
          (assign_requests_greedy [testReq] [testElev])).all_served.map
            Request.rid).Perm ([testReq].map Request.rid)) :=
  ⟨by decide,
    (simulate_dispatch_conserves_requests testCfg [testReq] [testElev] 10 0 1
      (by decide) (by decide) (by decide)).1⟩

set_option maxHeartbeats 2000000 in
/-- Witness for C3 at a concrete input: the first record served by the
completed one-request run carries the four ordered timestamps. -/
theorem served_requests_timestamps_witness :
    ∃ oa pu da dd,
      ((simulate_dispatch testCfg 10
          [{ eid := 1, floor := 1, queue := [testReq] }]).all_served.getD 0
            default).originArrivalTime = some oa
      ∧ ((simulate_dispatch testCfg 10
          [{ eid := 1, floor := 1, queue := [testReq] }]).all_served.getD 0
            default).pickupTime = some pu
      ∧ ((simulate_dispatch testCfg 10
          [{ eid := 1, floor := 1, queue := [testReq] }]).all_served.getD 0
            default).destinationArrivalTime = some da
      ∧ ((simulate_dispatch testCfg 10
          [{ eid := 1, floor := 1, queue := [testReq] }]).all_served.getD 0
            default).dropoffTime = some dd
      ∧ ((simulate_dispatch testCfg 10
          [{ eid := 1, floor := 1, queue := [testReq] }]).all_served.getD 0
            default).arrivalTime ≤ oa ∧ oa ≤ pu ∧ pu ≤ dd ∧ da ≤ dd :=
  served_requests_timestamps testCfg [{ eid := 1, floor := 1, queue := [testReq] }]
    10 (by decide) (by decide) (by decide)
    (fun _ _ _ => Nat.cast_nonneg _) (fun _ _ => zero_le_one) (by decide)
    _ (by decide)

set_option maxHeartbeats 2000000 in
/-- Witness for the amended C2 at a concrete input. -/
theorem process_stop_capacity_with_slack_witness :
    (∀ m ∈ (run_elevator testCfg 10 slackElev).2.stopLoads,
        m ≤ testCfg.capacity + slackElev.queue.length * eps)
    ∧ (∀ (store : List Request) (remaining : ℚ) (j : ℕ) (rest : List ℕ),
        ((lookup store j).load ≤ remaining + eps →
          filter_admissible store remaining (j :: rest)
            = j :: filter_admissible store
                (remaining - (lookup store j).load) rest)
        ∧ (¬(lookup store j).load ≤ remaining + eps →
          filter_admissible store remaining (j :: rest)
            = filter_admissible store remaining rest))
    ∧ (∀ (s : SimSt) (B L : List ℕ) (j : ℕ), j ∈ s.waiting →
        j ∉ admitted_at testCfg s B L → j ∈ (process_stop testCfg s B L).waiting) :=
  process_stop_capacity_with_slack testCfg 10 slackElev (by decide) (by decide)
    (by decide) (fun _ _ _ => Nat.cast_nonneg _) (fun _ _ => zero_le_one)

set_option maxHeartbeats 2000000 in
/-- Counterexample to the literal C2: a run in which a recorded stop mass
strictly exceeds the configured capacity (the two admitted loads sum to
capacity + 1e-9, let through by the admission slack). -/
theorem process_stop_capacity_counterexample :
    ∃ m ∈ (run_elevator testCfg 10 slackElev).2.stopLoads,
      testCfg.capacity < m := by decide

end ConcreteEvaluations

end FloorCast
